import Mathlib

/-!
# Verification of the cmp area-management and navigation subsystem

A shallow embedding of the area engine (`src/cmp/src/model/area.rs`), the
pitch lifecycle (`src/cmp/src/model/pitch.rs`), the navigation mesh
(`src/cmp/src/model/nav.rs`), the grid geometry primitives
(`src/cmp/src/model/geometry.rs`) and the pitch build validation
(`src/cmp/src/ui/build.rs`), together with proofs of the specified
properties.

Machine integers (`i32`, `u32`) are modelled as `Int`/`Nat`; no claim under
study depends on wrap-around behaviour.  Rust `HashSet` tile sets are
modelled as `Finset`; where the source draws an *arbitrary* element out of a
hash set (`keys().next()`), the embedding is parametrised by a choice
function `pick` and the theorems hold for every valid choice.
-/

/-- `GridPosition` from `model/geometry.rs`: an integer 3-vector. -/
@[ext]
structure Pos where
  x : Int
  y : Int
  z : Int
deriving DecidableEq, Repr

/-- `GridPosition::neighbors`: the four axis-aligned 2D neighbours, in the
source's order `[(-1,0), (1,0), (0,-1), (0,1)]`, at the same z. -/
def Pos.neighbors (p : Pos) : List Pos :=
  [⟨p.x - 1, p.y, p.z⟩, ⟨p.x + 1, p.y, p.z⟩, ⟨p.x, p.y - 1, p.z⟩, ⟨p.x, p.y + 1, p.z⟩]

/-- 4-adjacency of two grid positions (membership in `neighbors`). -/
def Adj (p q : Pos) : Prop := q ∈ p.neighbors

instance (p q : Pos) : Decidable (Adj p q) := by unfold Adj; infer_instance

/-- The inclusive integer range `[a ..= b]` of a Rust `RangeInclusive`
iteration (empty when `b < a`). -/
def intRange (a b : Int) : List Int :=
  (List.range (b + 1 - a).toNat).map fun i : Nat => a + (i : Int)

theorem mem_intRange {a b x : Int} : x ∈ intRange a b ↔ a ≤ x ∧ x ≤ b := by
  unfold intRange
  constructor
  · intro h
    obtain ⟨i, hi, hx⟩ := List.mem_map.mp h
    have hi' := List.mem_range.mp hi
    omega
  · intro h
    refine List.mem_map.mpr ⟨(x - a).toNat, List.mem_range.mpr ?_, ?_⟩ <;> omega

/-- `BoundingBox` from `model/geometry.rs`: non-negative (u32) extents. -/
structure BBox where
  ex : Nat
  ey : Nat
  ez : Nat
deriving DecidableEq, Repr

/-- `BoundingBox::flat`: forces the height (z extent) to 1. -/
def BBox.flat (b : BBox) : BBox := { b with ez := 1 }

/-- `BoundingBox / u32` (componentwise u32 division, used by `GridBox::around`). -/
def BBox.halved (b : BBox) : BBox := ⟨b.ex / 2, b.ey / 2, b.ez / 2⟩

/-- `GridBox` from `model/geometry.rs`: smallest corner plus extents. -/
structure GridBox where
  corner  : Pos
  extents : BBox
deriving DecidableEq, Repr

/-- `GridBox::from_corners`: normalizes two arbitrary corners by
componentwise min/max; the extents are the (non-negative) differences. -/
def GridBox.fromCorners (c1 c2 : Pos) : GridBox :=
  { corner := ⟨min c1.x c2.x, min c1.y c2.y, min c1.z c2.z⟩
    extents := ⟨(max c1.x c2.x - min c1.x c2.x).toNat,
                (max c1.y c2.y - min c1.y c2.y).toNat,
                (max c1.z c2.z - min c1.z c2.z).toNat⟩ }

/-- `GridBox::around`: centers the extents at the given position. -/
def GridBox.around (center : Pos) (extents : BBox) : GridBox :=
  let h := extents.halved
  let first : Pos := ⟨center.x - h.ex, center.y - h.ey, center.z - h.ez⟩
  let second : Pos := ⟨first.x + extents.ex - 1, first.y + extents.ey - 1, first.z + extents.ez - 1⟩
  GridBox.fromCorners first second

/-- `GridBox::largest`: the inclusive upper corner, `corner + extents`. -/
def GridBox.largest (b : GridBox) : Pos :=
  ⟨b.corner.x + b.extents.ex, b.corner.y + b.extents.ey, b.corner.z + b.extents.ez⟩

/-- `GridBox::floor_positions`: all positions on the floor (lowest z). -/
def GridBox.floorPositions (b : GridBox) : List Pos :=
  (intRange b.corner.x b.largest.x).flatMap fun x =>
    (intRange b.corner.y b.largest.y).map fun y => ⟨x, y, b.corner.z⟩

/-- `GridBox::enlargen`: raises the extents by a delta (the delta used by the
sources is always `(1,1,1)`, so the negative-extent renormalization branch is
never taken; it is included for faithfulness). -/
def GridBox.enlargen (b : GridBox) (dx dy dz : Int) : GridBox :=
  let nx := (b.extents.ex : Int) + dx
  let ny := (b.extents.ey : Int) + dy
  let nz := (b.extents.ez : Int) + dz
  if nx < 0 ∨ ny < 0 ∨ nz < 0 then
    -- `GridBox::new`: re-normalize via `from_corners(corner, corner + new - 1)`.
    GridBox.fromCorners b.corner ⟨b.corner.x + nx - 1, b.corner.y + ny - 1, b.corner.z + nz - 1⟩
  else
    { b with extents := ⟨nx.toNat, ny.toNat, nz.toNat⟩ }

/-- Modelled from the spec: `GridPosition::component_wise_min`, whose
definition is missing from the sources (only call sites exist); per the spec
it "computes min/max per axis". -/
def Pos.componentWiseMin (p q : Pos) : Pos := ⟨min p.x q.x, min p.y q.y, min p.z q.z⟩

/-- Modelled from the spec: `GridPosition::component_wise_max`; see
`Pos.componentWiseMin`. -/
def Pos.componentWiseMax (p q : Pos) : Pos := ⟨max p.x q.x, max p.y q.y, max p.z q.z⟩

/-- `Area` from `model/area.rs`: a tile set plus a cached bounding box. -/
structure Area where
  tiles : Finset Pos
  aabb  : GridBox
deriving DecidableEq

/-- `Area::recompute_bounds` as a function of the tile set: minmax of the x
and y coordinates (`(0, 0)` for an empty set), then
`from_corners((min_x, min_y, 0), (max_x + 1, max_y + 1, 1))`. -/
def recomputeBox (tiles : Finset Pos) : GridBox :=
  if h : tiles.Nonempty then
    let hx := tiles.image Pos.x
    let hy := tiles.image Pos.y
    let hxne : hx.Nonempty := h.image _
    let hyne : hy.Nonempty := h.image _
    GridBox.fromCorners ⟨hx.min' hxne, hy.min' hyne, 0⟩
      ⟨hx.max' hxne + 1, hy.max' hyne + 1, 1⟩
  else
    GridBox.fromCorners ⟨0, 0, 0⟩ ⟨0 + 1, 0 + 1, 1⟩

/-- `Area::recompute_bounds` (in-place in the source). -/
def Area.recomputeBounds (a : Area) : Area :=
  { a with aabb := recomputeBox a.tiles }

/-- `Area::from_rect`: all tiles of the rectangle spanned by the two corners.
The source maps the `(x, y)` pairs through `GridPosition::from((i32, i32))`,
which sets `z = 0`; the stored `aabb` is the corner box enlarged by
`(1, 1, 1)`. -/
def Area.fromRect (c1 c2 : Pos) : Area :=
  let smallest := c1.componentWiseMin c2
  let largest := c1.componentWiseMax c2
  let aabb := GridBox.fromCorners smallest largest
  let tiles : Finset Pos :=
    ((intRange aabb.corner.x aabb.largest.x).flatMap fun x =>
      (intRange aabb.corner.y aabb.largest.y).map fun y => (⟨x, y, 0⟩ : Pos)).toFinset
  { tiles := tiles, aabb := aabb.enlargen 1 1 1 }

/-- `Area::retain_tiles`: keep only tiles satisfying the predicate, then
recompute the bounds. -/
def Area.retainTiles (a : Area) (pred : Pos → Bool) : Area :=
  { tiles := a.tiles.filter fun t => pred t
    aabb := recomputeBox (a.tiles.filter fun t => pred t) }

/-- `Area::is_empty`. -/
def Area.isEmpty (a : Area) : Bool := a.tiles = ∅

/-- `Area::size`. -/
def Area.size (a : Area) : Nat := a.tiles.card

/-- `Area::contains`. -/
def Area.containsPos (a : Area) (p : Pos) : Bool := p ∈ a.tiles

/-- `Area::fits`: every floor position of the box is a tile of the area. -/
def Area.fits (a : Area) (b : GridBox) : Bool :=
  b.floorPositions.all fun p => a.containsPos p

/-- The flood-fill loop of `Area::is_discontinuous`: `cand` is
`candidate_tiles`, the list is the `nearby_tiles` FIFO queue (head = front).
One iteration pops the front tile, collects its neighbours that are still
candidates, enqueues them at the back and removes them from the candidates.
The source loop terminates because each enqueue removes a candidate; here a
fuel argument bounds the recursion and `2 * cand.card + queue.length` fuel is
provably sufficient. -/
def floodFill : Nat → Finset Pos → List Pos → Finset Pos
  | 0, cand, _ => cand
  | _ + 1, cand, [] => cand
  | fuel + 1, cand, cur :: queue =>
    let ns := cur.neighbors.filter fun n => n ∈ cand
    floodFill fuel (cand \ ns.toFinset) (queue ++ ns)

/-- `Area::is_discontinuous`, parametrised by the seed tile the source draws
arbitrarily from the hash set (`candidate_tiles.keys().next()`): empty areas
are reported discontinuous, otherwise the flood fill runs from the seed and
any remaining candidate signals a discontinuity. -/
def isDiscontinuousFrom (tiles : Finset Pos) (seed : Pos) : Bool :=
  if tiles = ∅ then true
  else decide (floodFill (2 * tiles.card + 1) tiles [seed] ≠ ∅)

/-- Reachability inside a tile set along 4-adjacency: the reflexive
transitive closure of "both tiles in the set and adjacent". -/
def ReachIn (S : Finset Pos) : Pos → Pos → Prop :=
  Relation.ReflTransGen fun a b => a ∈ S ∧ b ∈ S ∧ Adj a b

/-- A tile set is 4-connected when every tile reaches every other tile
inside the set. -/
def ConnectedSet (S : Finset Pos) : Prop :=
  ∀ a ∈ S, ∀ b ∈ S, ReachIn S a b

theorem self_not_mem_neighbors (p : Pos) : p ∉ p.neighbors := by
  simp only [Pos.neighbors, List.mem_cons, List.not_mem_nil, or_false, Pos.ext_iff]
  omega

theorem adj_symm {p q : Pos} (h : Adj p q) : Adj q p := by
  simp only [Adj, Pos.neighbors, List.mem_cons, List.not_mem_nil, or_false, Pos.ext_iff] at h ⊢
  omega

theorem adj_irrefl (p : Pos) : ¬ Adj p p := self_not_mem_neighbors p

theorem neighbors_nodup (p : Pos) : p.neighbors.Nodup := by
  simp only [Pos.neighbors, List.nodup_cons, List.mem_cons, List.not_mem_nil, or_false,
    List.nodup_nil, and_true, Pos.ext_iff, not_or, not_false_iff]
  refine ⟨⟨?_, ?_, ?_⟩, ⟨?_, ?_⟩, ?_⟩ <;> intro h <;> omega

theorem reachIn_step {S : Finset Pos} {a b : Pos} (ha : a ∈ S) (hb : b ∈ S) (hadj : Adj a b) :
    ReachIn S a b :=
  Relation.ReflTransGen.single ⟨ha, hb, hadj⟩

theorem reachIn_symm {S : Finset Pos} {a b : Pos} (h : ReachIn S a b) : ReachIn S b a := by
  induction h with
  | refl => exact Relation.ReflTransGen.refl
  | tail _ hstep ih =>
    exact Relation.ReflTransGen.trans (reachIn_step hstep.2.1 hstep.1 (adj_symm hstep.2.2)) ih

theorem reachIn_mono {S T : Finset Pos} (hST : S ⊆ T) {a b : Pos} (h : ReachIn S a b) :
    ReachIn T a b := by
  induction h with
  | refl => exact Relation.ReflTransGen.refl
  | tail _ hstep ih =>
    exact Relation.ReflTransGen.tail ih ⟨hST hstep.1, hST hstep.2.1, hstep.2.2⟩

theorem floodFill_subset : ∀ fuel (C : Finset Pos) (Q : List Pos), floodFill fuel C Q ⊆ C := by
  intro fuel
  induction fuel with
  | zero => intro C Q; simp [floodFill]
  | succ n ih =>
    intro C Q
    cases Q with
    | nil => simp [floodFill]
    | cons cur rest =>
      exact (ih _ _).trans Finset.sdiff_subset

/-- Every tile removed by the flood fill is reachable from the seed: the
queue only ever contains tiles reachable from the seed within `S`. -/
theorem floodFill_removed_reach (S : Finset Pos) (seed : Pos) :
    ∀ fuel (C : Finset Pos) (Q : List Pos), C ⊆ S →
      (∀ q ∈ Q, q ∈ S ∧ ReachIn S seed q) →
      (∀ t ∈ S, t ∉ C → ReachIn S seed t) →
      ∀ t ∈ S, t ∉ floodFill fuel C Q → ReachIn S seed t := by
  intro fuel
  induction fuel with
  | zero => intro C Q _ _ hrem t ht htR; exact hrem t ht htR
  | succ n ih =>
    intro C Q hCS hQ hrem t ht htR
    cases Q with
    | nil => exact hrem t ht htR
    | cons cur rest =>
      have hcur := hQ cur (List.mem_cons_self _ _)
      refine ih (C \ (cur.neighbors.filter fun n => n ∈ C).toFinset)
        (rest ++ cur.neighbors.filter fun n => n ∈ C) ((Finset.sdiff_subset).trans hCS) ?_ ?_ t ht htR
      · intro q hq
        rcases List.mem_append.mp hq with hq | hq
        · exact hQ q (List.mem_cons_of_mem _ hq)
        · have hqC : q ∈ C := by
            have := List.mem_filter.mp hq
            simpa using this.2
          have hadj : Adj cur q := (List.mem_filter.mp hq).1
          exact ⟨hCS hqC, hcur.2.trans (reachIn_step hcur.1 (hCS hqC) hadj)⟩
      · intro u hu huC
        by_cases huC' : u ∈ C
        · have hns : u ∈ (cur.neighbors.filter fun n => n ∈ C).toFinset := by
            by_contra hns
            exact huC (Finset.mem_sdiff.mpr ⟨huC', hns⟩)
          have hmem := List.mem_filter.mp (List.mem_toFinset.mp hns)
          exact hcur.2.trans (reachIn_step hcur.1 (hCS huC') hmem.1)
        · exact hrem u hu huC'

/-- Closure of the flood-fill result under adjacency: with sufficient fuel,
every candidate neighbour of a queued tile, and every candidate neighbour of
a removed candidate, is itself removed. -/
theorem floodFill_closure :
    ∀ fuel (C : Finset Pos) (Q : List Pos), 2 * C.card + Q.length ≤ fuel →
      (∀ q ∈ Q, ∀ n, Adj q n → n ∈ C → n ∉ floodFill fuel C Q) ∧
      (∀ t ∈ C, t ∉ floodFill fuel C Q → ∀ n, Adj t n → n ∈ C → n ∉ floodFill fuel C Q) := by
  intro fuel
  induction fuel with
  | zero =>
    intro C Q hfuel
    have hQ : Q = [] := by
      cases Q with
      | nil => rfl
      | cons a b => simp at hfuel
    subst hQ
    exact ⟨by simp, fun t htC htR => absurd htC (by simpa [floodFill] using htR)⟩
  | succ m ih =>
    intro C Q hfuel
    cases Q with
    | nil =>
      exact ⟨by simp, fun t htC htR => absurd htC (by simpa [floodFill] using htR)⟩
    | cons cur rest =>
      set ns := cur.neighbors.filter (fun n => n ∈ C) with hns_def
      have hns_sub : ns.toFinset ⊆ C := by
        intro n hn
        have := List.mem_filter.mp (List.mem_toFinset.mp hn)
        simpa using this.2
      have hns_nodup : ns.Nodup := (neighbors_nodup cur).filter _
      have hns_card : ns.toFinset.card = ns.length := List.toFinset_card_of_nodup hns_nodup
      have hcard : (C \ ns.toFinset).card = C.card - ns.toFinset.card :=
        Finset.card_sdiff hns_sub
      have hle : ns.toFinset.card ≤ C.card := Finset.card_le_card hns_sub
      have hfuel' : 2 * (C \ ns.toFinset).card + (rest ++ ns).length ≤ m := by
        simp only [List.length_append]
        simp only [List.length_cons] at hfuel
        omega
      obtain ⟨ih1, ih2⟩ := ih (C \ ns.toFinset) (rest ++ ns) hfuel'
      have hstep : floodFill (m + 1) C (cur :: rest) = floodFill m (C \ ns.toFinset) (rest ++ ns) := rfl
      have hsub : floodFill m (C \ ns.toFinset) (rest ++ ns) ⊆ C \ ns.toFinset :=
        floodFill_subset _ _ _
      rw [hstep]
      have hInNs : ∀ n, n ∈ ns.toFinset → n ∉ floodFill m (C \ ns.toFinset) (rest ++ ns) := by
        intro n hn hmem
        exact absurd hn (Finset.mem_sdiff.mp (hsub hmem)).2
      constructor
      · intro q hq n hadj hnC
        rcases List.mem_cons.mp hq with rfl | hq
        · -- q = cur: the neighbour is collected into ns and removed.
          have : n ∈ ns.toFinset := by
            rw [List.mem_toFinset, hns_def, List.mem_filter]
            exact ⟨hadj, by simpa using hnC⟩
          exact hInNs n this
        · by_cases hn : n ∈ ns.toFinset
          · exact hInNs n hn
          · exact ih1 q (List.mem_append_left _ hq) n hadj (Finset.mem_sdiff.mpr ⟨hnC, hn⟩)
      · intro t htC htR n hadj hnC
        by_cases hn : n ∈ ns.toFinset
        · exact hInNs n hn
        · have hnC' : n ∈ C \ ns.toFinset := Finset.mem_sdiff.mpr ⟨hnC, hn⟩
          by_cases htn : t ∈ ns.toFinset
          · exact ih1 t (List.mem_append_right _ (List.mem_toFinset.mp htn)) n hadj hnC'
          · exact ih2 t (Finset.mem_sdiff.mpr ⟨htC, htn⟩) htR n hadj hnC'

/-- Flood-fill completeness packaged for `is_discontinuous`: if the tile set
is 4-connected, the fill started at a member seed leaves nothing behind
(this needs at least two tiles: the seed itself is only removed when a
processed tile sees it as a neighbour). -/
theorem floodFill_empty_of_connected {S : Finset Pos} {seed : Pos} (hseed : seed ∈ S)
    (hcard : 2 ≤ S.card) (hconn : ConnectedSet S) :
    floodFill (2 * S.card + 1) S [seed] = ∅ := by
  set R := floodFill (2 * S.card + 1) S [seed] with hR
  obtain ⟨cl1, cl2⟩ := floodFill_closure (2 * S.card + 1) S [seed] (by simp)
  have key : ∀ t, ReachIn S seed t → t = seed ∨ t ∉ R := by
    intro t ht
    induction ht with
    | refl => exact Or.inl rfl
    | @tail u t _ hstep ih =>
      right
      rcases ih with rfl | hu
      · exact cl1 u (List.mem_singleton.mpr rfl) t hstep.2.2 hstep.2.1
      · exact cl2 u hstep.1 hu t hstep.2.2 hstep.2.1
  have hseed_out : seed ∉ R := by
    have hone : 1 < S.card := by omega
    obtain ⟨t, htS, htne⟩ := Finset.exists_ne_of_one_lt_card hone seed
    have hpath : ReachIn S t seed := hconn t htS seed hseed
    rcases Relation.ReflTransGen.cases_tail hpath with heq | ⟨u, _, hstep⟩
    · exact absurd heq.symm htne
    · have huS : u ∈ S := hstep.1
      have hume : u ≠ seed := by
        rintro rfl
        exact adj_irrefl u hstep.2.2
      rcases key u (hconn seed hseed u huS) with rfl | hu
      · exact absurd rfl hume
      · exact cl2 u huS hu seed hstep.2.2 hseed
  apply Finset.eq_empty_of_forall_not_mem
  intro t htR
  have htS : t ∈ S := floodFill_subset _ _ _ htR
  rcases key t (hconn seed hseed t htS) with rfl | h
  · exact hseed_out htR
  · exact h htR

/-- Flood-fill soundness packaged for `is_discontinuous`: if the fill
removes every tile, the set was 4-connected. -/
theorem connected_of_floodFill_empty {S : Finset Pos} {seed : Pos} (hseed : seed ∈ S)
    (hempty : floodFill (2 * S.card + 1) S [seed] = ∅) : ConnectedSet S := by
  have hreach : ∀ t ∈ S, ReachIn S seed t := by
    intro t ht
    refine floodFill_removed_reach S seed (2 * S.card + 1) S [seed] (subset_refl S) ?_ ?_ t ht ?_
    · intro q hq
      rcases List.mem_singleton.mp hq with rfl
      exact ⟨hseed, Relation.ReflTransGen.refl⟩
    · intro u hu huS
      exact absurd hu huS
    · simp [hempty]
  intro a ha b hb
  exact (reachIn_symm (hreach a ha)).trans (hreach b hb)

/-- The corrected characterization of `Area::is_discontinuous`: on a tile
set with at least two tiles, and for any seed the hash set may yield, it
returns `true` exactly when the set is not 4-connected.  (A singleton set is
also reported discontinuous, see the counterexample for the claim.) -/
theorem isDiscontinuousFrom_iff {S : Finset Pos} {seed : Pos} (hseed : seed ∈ S)
    (hcard : 2 ≤ S.card) :
    isDiscontinuousFrom S seed = true ↔ ¬ ConnectedSet S := by
  have hSne : ¬ S = ∅ := by
    intro h
    subst h
    simp at hcard
  rw [isDiscontinuousFrom, if_neg hSne]
  simp only [decide_eq_true_eq]
  constructor
  · intro hne hconn
    exact hne (floodFill_empty_of_connected hseed hcard hconn)
  · intro hnconn hempty
    exact hnconn (connected_of_floodFill_empty hseed hempty)

/-- `GroundKind` from `model/tile.rs`. -/
inductive GroundKind where
  | grass
  | pathway
  | poolPath
  | pitch
deriving DecidableEq, Repr

/-- A modelling device only (the source has no order on grid positions
beyond its partial one): a lexicographic linear order used to draw a
deterministic representative out of a finite tile set. -/
instance : LinearOrder Pos :=
  LinearOrder.lift' (fun p : Pos => toLex ((p.x, toLex ((p.y, p.z) : Int × Int)) : Int × (Int ×ₗ Int)))
    (by
      intro a b h
      have h' : ((a.x, (a.y, a.z)) : Int × Int × Int) = (b.x, (b.y, b.z)) := h
      simp only [Prod.mk.injEq] at h'
      exact Pos.ext h'.1 h'.2.1 h'.2.2)

/-- A deterministic stand-in for `HashSet::keys().next().unwrap()`: the
lexicographically smallest element.  The unification theorems are proved
for an arbitrary valid choice function; this one is used for concrete runs. -/
def pickFirst (S : Finset Pos) : Pos :=
  if h : S.Nonempty then S.min' h else ⟨0, 0, 0⟩

theorem pickFirst_mem : ∀ S : Finset Pos, S ≠ ∅ → pickFirst S ∈ S := by
  intro S hS
  have h : S.Nonempty := Finset.nonempty_iff_ne_empty.mpr hS
  simpa [pickFirst, h] using S.min'_mem h

/-- Step 1 of `update_areas<T>`: the union of the tiles of the existing
(plain) `Area` instances of the marker, filtered to those whose current
ground kind still satisfies the marker's `is_allowed_ground_type`
(`kind_of(tile).is_some_and(...)`). -/
def tileAllowed (allowed : GroundKind → Bool) (kindOf : Pos → Option GroundKind) (t : Pos) : Bool :=
  match kindOf t with
  | some k => allowed k
  | none => false

def collectRemaining (allowed : GroundKind → Bool) (kindOf : Pos → Option GroundKind)
    (oldAreas : List (Finset Pos)) : Finset Pos :=
  oldAreas.foldl (fun acc a => acc ∪ a.filter fun t => tileAllowed allowed kindOf t) ∅

/-- The flood-fill unification loop of `update_areas<T>`.  The deque
`adjacent_tiles` is popped at the back and pushed at the front, so it is
modelled with the list head as the back.  When the queue runs dry the
accumulated `active_area` is pushed (with recomputed bounds, tracked
separately via `recomputeBox`) and a fresh seed is drawn from the remaining
tiles; the popped tile is moved from `remaining_tiles` into the active area
and its unqueued remaining neighbours are enqueued.  Fuel bounds the
recursion; `remaining.card + 1` is provably sufficient since every
iteration removes one remaining tile. -/
def unifyLoop (pick : Finset Pos → Pos) :
    Nat → Finset Pos → List Pos → Finset Pos → List (Finset Pos) → List (Finset Pos)
  | 0, _, _, active, areas => areas ++ [active]
  | fuel + 1, remaining, queue, active, areas =>
    if remaining = ∅ then areas ++ [active]
    else
      match queue with
      | next :: rest =>
        unifyLoop pick fuel (remaining.erase next)
          (rest ++ next.neighbors.filter fun n => decide (n ∉ rest) && decide (n ∈ remaining.erase next))
          (insert next active) areas
      | [] =>
        -- `active_area.recompute_bounds(); new_areas.push(active_area);` then
        -- seed a fresh area and fall through to the pop in the same pass.
        unifyLoop pick fuel (remaining.erase (pick remaining))
          (List.filter (fun n => decide (n ∈ remaining.erase (pick remaining)))
            (pick remaining).neighbors)
          {pick remaining} (areas ++ [active])

/-- The component tile sets computed by one `update_areas<T>` run: collect
the surviving claimed tiles, seed the queue if any remain, run the
unification loop; the trailing `active_area` is pushed unconditionally
after the loop. -/
def updateAreasTiles (pick : Finset Pos → Pos) (allowed : GroundKind → Bool)
    (kindOf : Pos → Option GroundKind) (oldAreas : List (Finset Pos)) : List (Finset Pos) :=
  let remaining := collectRemaining allowed kindOf oldAreas
  unifyLoop pick (remaining.card + 1) remaining
    (if remaining = ∅ then [] else [pick remaining]) ∅ []

/-- The `Area` components produced by `update_areas<T>` (each pushed area
has its bounds recomputed by the source just before the push). -/
def updateAreasResult (pick : Finset Pos → Pos) (allowed : GroundKind → Bool)
    (kindOf : Pos → Option GroundKind) (oldAreas : List (Finset Pos)) : List Area :=
  (updateAreasTiles pick allowed kindOf oldAreas).map fun c => ⟨c, recomputeBox c⟩

/-- The fate of entities in the `zip_longest` pairing step of
`update_areas<T>`: a computed component paired with an existing entity
overwrites it in place, an unpaired component spawns a fresh entity, and an
unpaired old entity is despawned. -/
inductive PairOutcome where
  | overwrite (entity : Nat) (newArea : Area)
  | spawnNew (newArea : Area)
  | despawn (entity : Nat)
deriving DecidableEq

/-- The `zip_longest` pairing of new components with old area entities
(`Both` overwrites, `Left` spawns, `Right` despawns). -/
def pairUp : List Area → List Nat → List PairOutcome
  | [], es => es.map .despawn
  | n :: ns, [] => .spawnNew n :: pairUp ns []
  | n :: ns, e :: es => .overwrite e n :: pairUp ns es

/-- Union of a list of tile sets. -/
def unionList (L : List (Finset Pos)) : Finset Pos := L.foldr (· ∪ ·) ∅

theorem connectedSet_empty : ConnectedSet ∅ := by
  intro a ha
  simp at ha

theorem connectedSet_singleton (p : Pos) : ConnectedSet {p} := by
  intro a ha b hb
  rw [Finset.mem_singleton] at ha hb
  subst ha; subst hb
  exact Relation.ReflTransGen.refl

/-- Adding a tile adjacent to an existing tile (or to an empty set) keeps a
tile set 4-connected. -/
theorem connectedSet_insert {A : Finset Pos} {p : Pos} (hconn : ConnectedSet A)
    (h : A = ∅ ∨ ∃ t ∈ A, Adj t p) : ConnectedSet (insert p A) := by
  have hmono : ∀ a b, a ∈ A → b ∈ A → ReachIn (insert p A) a b := fun a b ha hb =>
    reachIn_mono (Finset.subset_insert _ _) (hconn a ha b hb)
  have hp_to : ∀ b ∈ A, ReachIn (insert p A) p b := by
    intro b hb
    rcases h with rfl | ⟨t, htA, hadj⟩
    · simp at hb
    · exact (reachIn_step (Finset.mem_insert_self _ _)
        (Finset.mem_insert_of_mem htA) (adj_symm hadj)).trans (hmono t b htA hb)
  intro a ha b hb
  rcases Finset.mem_insert.mp ha with ha' | ha' <;> rcases Finset.mem_insert.mp hb with hb' | hb'
  · rw [ha', hb']
    exact Relation.ReflTransGen.refl
  · rw [ha']
    exact hp_to b hb'
  · rw [hb']
    exact reachIn_symm (hp_to a ha')
  · exact hmono a b ha' hb' 

theorem unionList_append_singleton (L : List (Finset Pos)) (c : Finset Pos) :
    unionList (L ++ [c]) = unionList L ∪ c := by
  induction L with
  | nil => simp [unionList]
  | cons d L ih =>
    simp only [unionList, List.foldr_cons, List.cons_append] at ih ⊢
    rw [ih, Finset.union_assoc]

theorem mem_unionList {L : List (Finset Pos)} {t : Pos} :
    t ∈ unionList L ↔ ∃ c ∈ L, t ∈ c := by
  induction L with
  | nil => simp [unionList]
  | cons d L ih =>
    simp only [unionList, List.foldr_cons, Finset.mem_union, List.mem_cons] at ih ⊢
    constructor
    · rintro (h | h)
      · exact ⟨d, Or.inl rfl, h⟩
      · obtain ⟨c, hc, htc⟩ := ih.mp h
        exact ⟨c, Or.inr hc, htc⟩
    · rintro ⟨c, rfl | hc, htc⟩
      · exact Or.inl htc
      · exact Or.inr (ih.mpr ⟨c, hc, htc⟩)

/-- In a pairwise-disjoint list of tile sets, a tile of the union belongs to
exactly one member. -/
theorem countP_eq_one_of_pairwise_disjoint {L : List (Finset Pos)}
    (hdisj : List.Pairwise Disjoint L) {t : Pos} (ht : t ∈ unionList L) :
    L.countP (fun c => decide (t ∈ c)) = 1 := by
  induction L with
  | nil => simp [unionList] at ht
  | cons c L ih =>
    have hdl := List.pairwise_cons.mp hdisj
    rw [List.countP_cons]
    by_cases htc : t ∈ c
    · have hz : L.countP (fun c => decide (t ∈ c)) = 0 := by
        rw [List.countP_eq_zero]
        intro d hd
        simp only [decide_eq_true_eq]
        exact fun htd => Finset.disjoint_left.mp (hdl.1 d hd) htc htd
      simp [hz, htc]
    · have htL : t ∈ unionList L := by
        rcases mem_unionList.mp ht with ⟨d, hd, htd⟩
        rcases List.mem_cons.mp hd with rfl | hd
        · exact absurd htd htc
        · exact mem_unionList.mpr ⟨d, hd, htd⟩
      simp [ih hdl.2 htL, htc]

theorem countP_eq_zero_of_not_mem_unionList {L : List (Finset Pos)} {t : Pos}
    (ht : t ∉ unionList L) : L.countP (fun c => decide (t ∈ c)) = 0 := by
  rw [List.countP_eq_zero]
  intro c hc
  simp only [decide_eq_true_eq]
  exact fun htc => ht (mem_unionList.mpr ⟨c, hc, htc⟩)

/-- The main invariant of the `update_areas` unification loop: with enough
fuel, a duplicate-free queue of remaining tiles adjacent to the active area,
a connected active area, and disjoint finished components, the loop produces
nonempty connected components that partition the finished components, the
active area and the remaining tiles. -/
theorem unifyLoop_spec (pick : Finset Pos → Pos)
    (hpick : ∀ S : Finset Pos, S ≠ ∅ → pick S ∈ S) :
    ∀ (fuel : Nat) (R : Finset Pos) (Q : List Pos) (A : Finset Pos) (L : List (Finset Pos)),
      R.card + 1 ≤ fuel →
      Q.Nodup →
      (∀ q ∈ Q, q ∈ R) →
      (A = ∅ → (∃ s, Q = [s]) ∧ R ≠ ∅) →
      (A ≠ ∅ → ∀ q ∈ Q, ∃ t ∈ A, Adj t q) →
      ConnectedSet A →
      (∀ c ∈ L, c.Nonempty ∧ ConnectedSet c) →
      Disjoint A R →
      (∀ c ∈ L, Disjoint c R ∧ Disjoint c A) →
      List.Pairwise Disjoint L →
      (∀ c ∈ unifyLoop pick fuel R Q A L, c.Nonempty ∧ ConnectedSet c) ∧
      unionList (unifyLoop pick fuel R Q A L) = (unionList L ∪ A) ∪ R ∧
      List.Pairwise Disjoint (unifyLoop pick fuel R Q A L) := by
  intro fuel
  induction fuel with
  | zero =>
    intro R Q A L hfuel
    omega
  | succ m ih =>
    intro R Q A L hfuel hnodup hQR hA0 hAdj hconnA hL hAR hLd hLp
    by_cases hR : R = ∅
    · subst hR
      have hAne : A.Nonempty := by
        rcases Finset.eq_empty_or_nonempty A with rfl | h
        · exact absurd rfl (hA0 rfl).2
        · exact h
      have hstep : unifyLoop pick (m + 1) ∅ Q A L = L ++ [A] := by
        cases Q with
        | nil =>
          have h0 : unifyLoop pick (m + 1) (∅ : Finset Pos) [] A L =
              if (∅ : Finset Pos) = ∅ then L ++ [A]
              else unifyLoop pick m ((∅ : Finset Pos).erase (pick ∅))
                (List.filter (fun n => decide (n ∈ (∅ : Finset Pos).erase (pick ∅)))
                  (pick ∅).neighbors) {pick ∅} (L ++ [A]) := rfl
          rw [h0, if_pos rfl]
        | cons next rest =>
          have h0 : unifyLoop pick (m + 1) (∅ : Finset Pos) (next :: rest) A L =
              if (∅ : Finset Pos) = ∅ then L ++ [A]
              else unifyLoop pick m ((∅ : Finset Pos).erase next)
                (rest ++ next.neighbors.filter fun n =>
                  decide (n ∉ rest) && decide (n ∈ (∅ : Finset Pos).erase next))
                (insert next A) L := rfl
          rw [h0, if_pos rfl]
      rw [hstep]
      refine ⟨?_, ?_, ?_⟩
      · intro c hc
        rcases List.mem_append.mp hc with hc | hc
        · exact hL c hc
        · rw [List.mem_singleton] at hc
          subst hc
          exact ⟨hAne, hconnA⟩
      · rw [unionList_append_singleton]
        simp
      · rw [List.pairwise_append]
        exact ⟨hLp, List.pairwise_singleton _ _, by
          intro c hc d hd
          rw [List.mem_singleton] at hd
          subst hd
          exact (hLd c hc).2⟩
    · cases Q with
      | cons next rest =>
        have hnextR : next ∈ R := hQR next (List.mem_cons_self _ _)
        have hcard : (R.erase next).card + 1 ≤ m := by
          have := Finset.card_erase_of_mem hnextR
          have hpos : 0 < R.card := Finset.card_pos.mpr ⟨next, hnextR⟩
          omega
        have hno := List.nodup_cons.mp hnodup
        set ns := next.neighbors.filter
          (fun n => decide (n ∉ rest) && decide (n ∈ R.erase next)) with hns
        have hstep : unifyLoop pick (m + 1) R (next :: rest) A L =
            if R = ∅ then L ++ [A]
            else unifyLoop pick m (R.erase next) (rest ++ ns) (insert next A) L := rfl
        rw [hstep, if_neg hR]
        have hns_mem : ∀ n ∈ ns, Adj next n ∧ n ∉ rest ∧ n ∈ R.erase next := by
          intro n hn
          have := List.mem_filter.mp hn
          refine ⟨this.1, ?_, ?_⟩
          · have := this.2
            simp only [Bool.and_eq_true, decide_eq_true_eq] at this
            exact this.1
          · have := this.2
            simp only [Bool.and_eq_true, decide_eq_true_eq] at this
            exact this.2
        have hQR' : ∀ q ∈ rest ++ ns, q ∈ R.erase next := by
          intro q hq
          rcases List.mem_append.mp hq with hq | hq
          · exact Finset.mem_erase.mpr ⟨fun h => hno.1 (h ▸ hq), hQR q (List.mem_cons_of_mem _ hq)⟩
          · exact (hns_mem q hq).2.2
        have hnodup' : (rest ++ ns).Nodup := by
          rw [List.nodup_append]
          exact ⟨hno.2, (neighbors_nodup next).filter _,
            fun a ha hans => (hns_mem a hans).2.1 ha⟩
        have hA0' : insert next A = ∅ → (∃ s, rest ++ ns = [s]) ∧ R.erase next ≠ ∅ := by
          intro h
          exact absurd h (Finset.insert_ne_empty _ _)
        have hAdj' : insert next A ≠ ∅ → ∀ q ∈ rest ++ ns, ∃ t ∈ insert next A, Adj t q := by
          intro _ q hq
          rcases List.mem_append.mp hq with hq | hq
          · rcases Finset.eq_empty_or_nonempty A with rfl | hAne
            · obtain ⟨⟨s, hs⟩, -⟩ := hA0 rfl
              rw [List.cons_eq_cons] at hs
              rw [hs.2] at hq
              simp at hq
            · obtain ⟨t, htA, hadj⟩ :=
                hAdj (Finset.nonempty_iff_ne_empty.mp hAne) q (List.mem_cons_of_mem _ hq)
              exact ⟨t, Finset.mem_insert_of_mem htA, hadj⟩
          · exact ⟨next, Finset.mem_insert_self _ _, (hns_mem q hq).1⟩
        have hconnA' : ConnectedSet (insert next A) := by
          refine connectedSet_insert hconnA ?_
          rcases Finset.eq_empty_or_nonempty A with rfl | hAne
          · exact Or.inl rfl
          · exact Or.inr (hAdj (Finset.nonempty_iff_ne_empty.mp hAne) next (List.mem_cons_self _ _))
        have hAR' : Disjoint (insert next A) (R.erase next) := by
          rw [Finset.disjoint_left]
          intro a ha haR
          rcases Finset.mem_insert.mp ha with rfl | ha
          · exact (Finset.mem_erase.mp haR).1 rfl
          · exact Finset.disjoint_left.mp hAR ha (Finset.mem_of_mem_erase haR)
        have hLd' : ∀ c ∈ L, Disjoint c (R.erase next) ∧ Disjoint c (insert next A) := by
          intro c hc
          refine ⟨Finset.disjoint_of_subset_right (Finset.erase_subset _ _) (hLd c hc).1, ?_⟩
          rw [Finset.disjoint_left]
          intro a ha haA
          rcases Finset.mem_insert.mp haA with rfl | haA
          · exact Finset.disjoint_left.mp (hLd c hc).1 ha hnextR
          · exact Finset.disjoint_left.mp (hLd c hc).2 ha haA
        obtain ⟨ih1, ih2, ih3⟩ := ih (R.erase next) (rest ++ ns) (insert next A) L
          hcard hnodup' hQR' hA0' hAdj' hconnA' hL hAR' hLd' hLp
        refine ⟨ih1, ?_, ih3⟩
        rw [ih2]
        have : (unionList L ∪ insert next A) ∪ R.erase next = (unionList L ∪ A) ∪ R := by
          ext t
          simp only [Finset.mem_union, Finset.mem_insert, Finset.mem_erase]
          by_cases ht : t = next
          · subst ht
            simp [hnextR]
          · simp [ht]
        exact this
      | nil =>
        have hAne : A.Nonempty := by
          rcases Finset.eq_empty_or_nonempty A with rfl | h
          · obtain ⟨⟨s, hs⟩, -⟩ := hA0 rfl
            simp at hs
          · exact h
        set seed := pick R with hseed
        have hseedR : seed ∈ R := hpick R hR
        have hcard : (R.erase seed).card + 1 ≤ m := by
          have := Finset.card_erase_of_mem hseedR
          have hpos : 0 < R.card := Finset.card_pos.mpr ⟨seed, hseedR⟩
          omega
        set ns := List.filter (fun n => decide (n ∈ R.erase seed)) seed.neighbors with hns
        have hstep : unifyLoop pick (m + 1) R [] A L =
            if R = ∅ then L ++ [A]
            else unifyLoop pick m (R.erase seed) ns ({seed} : Finset Pos) (L ++ [A]) := rfl
        rw [hstep, if_neg hR]
        have hns_mem : ∀ n ∈ ns, Adj seed n ∧ n ∈ R.erase seed := by
          intro n hn
          have := List.mem_filter.mp hn
          exact ⟨this.1, by simpa using this.2⟩
        have hL' : ∀ c ∈ L ++ [A], c.Nonempty ∧ ConnectedSet c := by
          intro c hc
          rcases List.mem_append.mp hc with hc | hc
          · exact hL c hc
          · rw [List.mem_singleton] at hc
            subst hc
            exact ⟨hAne, hconnA⟩
        have hAR' : Disjoint ({seed} : Finset Pos) (R.erase seed) := by
          rw [Finset.disjoint_left]
          intro a ha haR
          rw [Finset.mem_singleton] at ha
          subst ha
          exact (Finset.mem_erase.mp haR).1 rfl
        have hLd' : ∀ c ∈ L ++ [A], Disjoint c (R.erase seed) ∧ Disjoint c ({seed} : Finset Pos) := by
          intro c hc
          have hcR : Disjoint c R := by
            rcases List.mem_append.mp hc with hc | hc
            · exact (hLd c hc).1
            · rw [List.mem_singleton] at hc
              subst hc
              exact hAR
          refine ⟨Finset.disjoint_of_subset_right (Finset.erase_subset _ _) hcR, ?_⟩
          rw [Finset.disjoint_left]
          intro a ha haS
          rw [Finset.mem_singleton] at haS
          subst haS
          exact Finset.disjoint_left.mp hcR ha hseedR
        have hLp' : List.Pairwise Disjoint (L ++ [A]) := by
          rw [List.pairwise_append]
          exact ⟨hLp, List.pairwise_singleton _ _, by
            intro c hc d hd
            rw [List.mem_singleton] at hd
            subst hd
            exact (hLd c hc).2⟩
        obtain ⟨ih1, ih2, ih3⟩ := ih (R.erase seed) ns ({seed} : Finset Pos) (L ++ [A])
          hcard ((neighbors_nodup seed).filter _) (fun q hq => (hns_mem q hq).2)
          (fun h => absurd h (Finset.singleton_ne_empty _))
          (fun _ q hq => ⟨seed, Finset.mem_singleton_self _, (hns_mem q hq).1⟩)
          (connectedSet_singleton seed) hL' hAR' hLd' hLp'
        refine ⟨ih1, ?_, ih3⟩
        rw [ih2, unionList_append_singleton]
        have : ((unionList L ∪ A) ∪ {seed}) ∪ R.erase seed = (unionList L ∪ A) ∪ R := by
          ext t
          simp only [Finset.mem_union, Finset.mem_singleton, Finset.mem_erase]
          by_cases ht : t = seed
          · subst ht
            simp [hseedR]
          · simp [ht]
        exact this

theorem mem_fromRect_tiles {c1 c2 : Pos} {t : Pos} :
    t ∈ (Area.fromRect c1 c2).tiles ↔
      min c1.x c2.x ≤ t.x ∧ t.x ≤ max c1.x c2.x ∧
      min c1.y c2.y ≤ t.y ∧ t.y ≤ max c1.y c2.y ∧ t.z = 0 := by
  simp only [Area.fromRect, GridBox.fromCorners, GridBox.largest, Pos.componentWiseMin,
    Pos.componentWiseMax, List.mem_toFinset, List.mem_flatMap, List.mem_map, mem_intRange]
  constructor
  · rintro ⟨x, hx, y, hy, rfl⟩
    refine ⟨?_, ?_, ?_, ?_, rfl⟩ <;> dsimp only <;> omega
  · rintro ⟨hx1, hx2, hy1, hy2, hz⟩
    refine ⟨t.x, ⟨?_, ?_⟩, t.y, ⟨?_, ?_⟩, Pos.ext rfl rfl hz.symm⟩ <;> dsimp only <;> omega

/-- `recompute_bounds` reproduces the `aabb` stored by `from_rect` whenever
both corners lie at `z = 0` (the only case arising in the sources, which
build rectangles from ground-level drag positions). -/
theorem recomputeBox_fromRect {c1 c2 : Pos} (h1 : c1.z = 0) (h2 : c2.z = 0) :
    recomputeBox (Area.fromRect c1 c2).tiles = (Area.fromRect c1 c2).aabb := by
  set a := min c1.x c2.x with ha
  set b := max c1.x c2.x with hb
  set c := min c1.y c2.y with hc
  set d := max c1.y c2.y with hd
  have hab : a ≤ b := min_le_max
  have hcd : c ≤ d := min_le_max
  have hmem : (⟨a, c, 0⟩ : Pos) ∈ (Area.fromRect c1 c2).tiles :=
    mem_fromRect_tiles.mpr ⟨le_refl _, hab, le_refl _, hcd, rfl⟩
  have hne : (Area.fromRect c1 c2).tiles.Nonempty := ⟨_, hmem⟩
  have hmemB : (⟨b, c, 0⟩ : Pos) ∈ (Area.fromRect c1 c2).tiles :=
    mem_fromRect_tiles.mpr ⟨hab, le_refl _, le_refl _, hcd, rfl⟩
  have hmemD : (⟨a, d, 0⟩ : Pos) ∈ (Area.fromRect c1 c2).tiles :=
    mem_fromRect_tiles.mpr ⟨le_refl _, hab, hcd, le_refl _, rfl⟩
  have hxmem : a ∈ (Area.fromRect c1 c2).tiles.image Pos.x := Finset.mem_image_of_mem _ hmem
  have hymem : c ∈ (Area.fromRect c1 c2).tiles.image Pos.y := Finset.mem_image_of_mem _ hmem
  have hxmin : ((Area.fromRect c1 c2).tiles.image Pos.x).min' (hne.image _) = a := by
    refine le_antisymm (Finset.min'_le _ _ hxmem) (Finset.le_min' _ _ _ ?_)
    intro x hx
    obtain ⟨t, ht, rfl⟩ := Finset.mem_image.mp hx
    exact (mem_fromRect_tiles.mp ht).1
  have hxmax : ((Area.fromRect c1 c2).tiles.image Pos.x).max' (hne.image _) = b := by
    refine le_antisymm (Finset.max'_le _ _ _ ?_) (Finset.le_max' _ _ ?_)
    · intro x hx
      obtain ⟨t, ht, rfl⟩ := Finset.mem_image.mp hx
      exact (mem_fromRect_tiles.mp ht).2.1
    · exact Finset.mem_image_of_mem _ hmemB
  have hymin : ((Area.fromRect c1 c2).tiles.image Pos.y).min' (hne.image _) = c := by
    refine le_antisymm (Finset.min'_le _ _ hymem) (Finset.le_min' _ _ _ ?_)
    intro y hy
    obtain ⟨t, ht, rfl⟩ := Finset.mem_image.mp hy
    exact (mem_fromRect_tiles.mp ht).2.2.1
  have hymax : ((Area.fromRect c1 c2).tiles.image Pos.y).max' (hne.image _) = d := by
    refine le_antisymm (Finset.max'_le _ _ _ ?_) (Finset.le_max' _ _ ?_)
    · intro y hy
      obtain ⟨t, ht, rfl⟩ := Finset.mem_image.mp hy
      exact (mem_fromRect_tiles.mp ht).2.2.2.1
    · exact Finset.mem_image_of_mem _ hmemD
  rw [recomputeBox, dif_pos hne]
  have haabb : (Area.fromRect c1 c2).aabb =
      (GridBox.fromCorners (c1.componentWiseMin c2) (c1.componentWiseMax c2)).enlargen 1 1 1 := rfl
  rw [haabb]
  simp only [hxmin, hxmax, hymin, hymax, GridBox.fromCorners, GridBox.enlargen,
    Pos.componentWiseMin, Pos.componentWiseMax]
  rw [if_neg (by push_neg; omega)]
  simp only [GridBox.mk.injEq, Pos.mk.injEq, BBox.mk.injEq, ← ha, ← hb, ← hc, ← hd, h1, h2]
  refine ⟨⟨?_, ?_, ?_⟩, ?_, ?_, ?_⟩ <;> omega

theorem pairUp_nil_left (es : List Nat) : pairUp [] es = es.map PairOutcome.despawn := rfl

/-- C5 (amended): for every Area with at least two tiles and any seed drawn
from its tile set, `is_discontinuous()` returns true exactly when the tile
set has more than one 4-connected component; the two concrete examples of
the claim hold for every possible seed.  (As stated the claim fails on
singleton areas, see the counterexample.) -/
theorem claim_C5_is_discontinuous :
    (∀ (ar : Area) (seed : Pos), seed ∈ ar.tiles → 2 ≤ ar.tiles.card →
      (isDiscontinuousFrom ar.tiles seed = true ↔ ¬ ConnectedSet ar.tiles)) ∧
    (∀ seed ∈ ({⟨0, 0, 0⟩, ⟨1, 0, 0⟩, ⟨5, 5, 0⟩} : Finset Pos),
      isDiscontinuousFrom {⟨0, 0, 0⟩, ⟨1, 0, 0⟩, ⟨5, 5, 0⟩} seed = true) ∧
    (∀ seed ∈ ({⟨0, 0, 0⟩, ⟨1, 0, 0⟩, ⟨1, 1, 0⟩} : Finset Pos),
      isDiscontinuousFrom {⟨0, 0, 0⟩, ⟨1, 0, 0⟩, ⟨1, 1, 0⟩} seed = false) :=
  ⟨fun _ _ h1 h2 => isDiscontinuousFrom_iff h1 h2, by decide, by decide⟩

theorem claim_C5_witness :
    ((isDiscontinuousFrom ({⟨0, 0, 0⟩, ⟨1, 0, 0⟩, ⟨5, 5, 0⟩} : Finset Pos) ⟨0, 0, 0⟩ = true) ↔
      ¬ ConnectedSet ({⟨0, 0, 0⟩, ⟨1, 0, 0⟩, ⟨5, 5, 0⟩} : Finset Pos)) ∧
    isDiscontinuousFrom ({⟨0, 0, 0⟩, ⟨1, 0, 0⟩, ⟨5, 5, 0⟩} : Finset Pos) ⟨0, 0, 0⟩ = true :=
  ⟨claim_C5_is_discontinuous.1 ⟨{⟨0, 0, 0⟩, ⟨1, 0, 0⟩, ⟨5, 5, 0⟩}, recomputeBox ∅⟩ ⟨0, 0, 0⟩
      (by decide) (by decide),
    claim_C5_is_discontinuous.2.1 ⟨0, 0, 0⟩ (by decide)⟩

/-- C5 counterexample: a singleton area has exactly one 4-connected
component, yet `is_discontinuous()` reports it as discontinuous (the seed is
pushed to the queue without being removed from the candidates, and no
neighbour ever removes it). -/
theorem claim_C5_counterexample :
    isDiscontinuousFrom ({⟨0, 0, 0⟩} : Finset Pos) ⟨0, 0, 0⟩ = true ∧
    ConnectedSet ({⟨0, 0, 0⟩} : Finset Pos) :=
  ⟨by decide, connectedSet_singleton _⟩

/-- C1 (amended): after a run of `update_areas<T>` on a non-empty collected
tile set — the union of the tiles of the *plain* `Area` instances of `T`
that still satisfy the marker predicate (`ImmutableArea` instances are not
read by the pass) — every collected tile belongs to exactly one resulting
component, no other tile belongs to any, every component is non-empty and
4-connected, and `is_discontinuous()` returns false on every component with
at least two tiles (singleton components are still reported discontinuous,
see the counterexample). -/
theorem claim_C1_update_areas_partition (pick : Finset Pos → Pos)
    (hpick : ∀ S : Finset Pos, S ≠ ∅ → pick S ∈ S)
    (allowed : GroundKind → Bool) (kindOf : Pos → Option GroundKind)
    (oldAreas : List (Finset Pos))
    (hne : collectRemaining allowed kindOf oldAreas ≠ ∅) :
    (∀ t ∈ collectRemaining allowed kindOf oldAreas,
      (updateAreasTiles pick allowed kindOf oldAreas).countP (fun c => decide (t ∈ c)) = 1) ∧
    (∀ t, t ∉ collectRemaining allowed kindOf oldAreas →
      (updateAreasTiles pick allowed kindOf oldAreas).countP (fun c => decide (t ∈ c)) = 0) ∧
    (∀ c ∈ updateAreasTiles pick allowed kindOf oldAreas, c.Nonempty ∧ ConnectedSet c) ∧
    (∀ c ∈ updateAreasTiles pick allowed kindOf oldAreas, ∀ seed ∈ c, 2 ≤ c.card →
      isDiscontinuousFrom c seed = false) := by
  have hrun : updateAreasTiles pick allowed kindOf oldAreas =
      unifyLoop pick ((collectRemaining allowed kindOf oldAreas).card + 1)
        (collectRemaining allowed kindOf oldAreas)
        [pick (collectRemaining allowed kindOf oldAreas)] ∅ [] := by
    simp only [updateAreasTiles]
    rw [if_neg hne]
  obtain ⟨h1, h2, h3⟩ := unifyLoop_spec pick hpick
    ((collectRemaining allowed kindOf oldAreas).card + 1)
    (collectRemaining allowed kindOf oldAreas)
    [pick (collectRemaining allowed kindOf oldAreas)] ∅ []
    (le_refl _) (List.nodup_singleton _)
    (fun q hq => by
      rw [List.mem_singleton] at hq
      subst hq
      exact hpick _ hne)
    (fun _ => ⟨⟨_, rfl⟩, hne⟩)
    (fun h => absurd rfl h)
    connectedSet_empty
    (fun c hc => absurd hc (List.not_mem_nil c))
    (Finset.disjoint_left.mpr (by simp))
    (fun c hc => absurd hc (List.not_mem_nil c))
    List.Pairwise.nil
  have hu : unionList (unifyLoop pick ((collectRemaining allowed kindOf oldAreas).card + 1)
      (collectRemaining allowed kindOf oldAreas)
      [pick (collectRemaining allowed kindOf oldAreas)] ∅ []) =
      collectRemaining allowed kindOf oldAreas := by
    rw [h2]
    simp [unionList]
  rw [hrun]
  refine ⟨?_, ?_, h1, ?_⟩
  · intro t ht
    exact countP_eq_one_of_pairwise_disjoint h3 (by rw [hu]; exact ht)
  · intro t ht
    exact countP_eq_zero_of_not_mem_unionList (by rw [hu]; exact ht)
  · intro c hc seed hs hcard
    have hconn := (h1 c hc).2
    have hiff := isDiscontinuousFrom_iff hs hcard
    have : ¬ (isDiscontinuousFrom c seed = true) := fun htrue => (hiff.mp htrue) hconn
    simpa using this

set_option maxHeartbeats 1600000 in
theorem claim_C1_witness :
    (updateAreasTiles pickFirst (fun _ => true) (fun _ => some GroundKind.pitch)
      [{⟨0, 0, 0⟩, ⟨1, 0, 0⟩}]).countP (fun c => decide ((⟨0, 0, 0⟩ : Pos) ∈ c)) = 1 :=
  (claim_C1_update_areas_partition pickFirst pickFirst_mem (fun _ => true)
    (fun _ => some GroundKind.pitch) [{⟨0, 0, 0⟩, ⟨1, 0, 0⟩}] (by decide)).1 ⟨0, 0, 0⟩ (by decide)

/-- C1 counterexample: with one plain Area claiming the single eligible tile
(0,0,0), the pass produces the singleton component `{(0,0,0)}` — which
survives by overwriting an existing entity — while `is_discontinuous()`
returns true on it; moreover a predicate-satisfying tile such as (5,5,0)
held only by an `ImmutableArea` instance ends up in no resulting component,
because the pass's query reads only plain `Area` components. -/
theorem claim_C1_counterexample :
    updateAreasTiles pickFirst (fun _ => true) (fun _ => some GroundKind.pitch) [{⟨0, 0, 0⟩}] =
      [{⟨0, 0, 0⟩}] ∧
    isDiscontinuousFrom ({⟨0, 0, 0⟩} : Finset Pos) ⟨0, 0, 0⟩ = true ∧
    (updateAreasTiles pickFirst (fun _ => true) (fun _ => some GroundKind.pitch)
      [{⟨0, 0, 0⟩}]).countP (fun c => decide ((⟨5, 5, 0⟩ : Pos) ∈ c)) = 0 := by
  decide

/-- C10: if no tile claimed by the existing areas still satisfies the
marker predicate, the computed component list is exactly one empty Area (the
trailing accumulator is pushed unconditionally), so the first pre-existing
entity is overwritten with the empty area and only the remaining entities
are despawned. -/
theorem claim_C10_empty_update (pick : Finset Pos → Pos) (allowed : GroundKind → Bool)
    (kindOf : Pos → Option GroundKind) (oldAreas : List (Finset Pos)) (e : Nat) (es : List Nat)
    (h : collectRemaining allowed kindOf oldAreas = ∅) :
    updateAreasResult pick allowed kindOf oldAreas = [⟨∅, recomputeBox ∅⟩] ∧
    pairUp (updateAreasResult pick allowed kindOf oldAreas) (e :: es) =
      PairOutcome.overwrite e ⟨∅, recomputeBox ∅⟩ :: es.map PairOutcome.despawn := by
  have htiles : updateAreasTiles pick allowed kindOf oldAreas = [∅] := by
    have h1 : updateAreasTiles pick allowed kindOf oldAreas =
        unifyLoop pick ((collectRemaining allowed kindOf oldAreas).card + 1)
          (collectRemaining allowed kindOf oldAreas)
          (if collectRemaining allowed kindOf oldAreas = ∅ then []
           else [pick (collectRemaining allowed kindOf oldAreas)]) ∅ [] := rfl
    rw [h1, h, if_pos rfl]
    rfl
  have hres : updateAreasResult pick allowed kindOf oldAreas = [⟨∅, recomputeBox ∅⟩] := by
    simp only [updateAreasResult, htiles, List.map_cons, List.map_nil]
  refine ⟨hres, ?_⟩
  rw [hres]
  have hstep : pairUp [⟨∅, recomputeBox ∅⟩] (e :: es) =
      PairOutcome.overwrite e ⟨∅, recomputeBox ∅⟩ :: pairUp [] es := rfl
  rw [hstep, pairUp_nil_left]

theorem claim_C10_witness :
    pairUp (updateAreasResult pickFirst (fun _ => false) (fun _ => none) [{⟨0, 0, 0⟩}]) [0, 1] =
      [PairOutcome.overwrite 0 ⟨∅, recomputeBox ∅⟩, PairOutcome.despawn 1] := by
  have h := claim_C10_empty_update pickFirst (fun _ => false) (fun _ => none) [{⟨0, 0, 0⟩}] 0 [1]
    (by decide)
  simpa using h.2

/-- C6 (amended): `recompute_bounds()` reproduces the stored `aabb` after
`retain_tiles`, after every rewrite performed by the area-unification pass,
and after `from_rect` from two corners at `z = 0`.  (As stated the claim
fails for `from_rect` corners with a non-zero z coordinate, see the
counterexample: `from_rect` drops the z coordinate of the tiles but keeps it
in the stored box.) -/
theorem claim_C6_bounds_consistency :
    (∀ c1 c2 : Pos, c1.z = 0 → c2.z = 0 →
      recomputeBox (Area.fromRect c1 c2).tiles = (Area.fromRect c1 c2).aabb) ∧
    (∀ (ar : Area) (pred : Pos → Bool),
      recomputeBox ((ar.retainTiles pred)).tiles = (ar.retainTiles pred).aabb) ∧
    (∀ (pick : Finset Pos → Pos) (allowed : GroundKind → Bool)
      (kindOf : Pos → Option GroundKind) (oldAreas : List (Finset Pos)),
      ∀ ar ∈ updateAreasResult pick allowed kindOf oldAreas,
        recomputeBox ar.tiles = ar.aabb) := by
  refine ⟨fun c1 c2 h1 h2 => recomputeBox_fromRect h1 h2, fun ar pred => rfl, ?_⟩
  intro pick allowed kindOf oldAreas ar har
  obtain ⟨c, _, rfl⟩ := List.mem_map.mp har
  rfl

theorem claim_C6_witness :
    recomputeBox (Area.fromRect ⟨0, 0, 0⟩ ⟨2, 3, 0⟩).tiles = (Area.fromRect ⟨0, 0, 0⟩ ⟨2, 3, 0⟩).aabb :=
  claim_C6_bounds_consistency.1 ⟨0, 0, 0⟩ ⟨2, 3, 0⟩ rfl rfl

/-- C6 counterexample: `from_rect` called with corners at z = 1 stores a box
whose corner keeps z = 1, while the tiles are created at z = 0, so
`recompute_bounds` does not reproduce the stored box. -/
theorem claim_C6_counterexample :
    recomputeBox (Area.fromRect ⟨0, 0, 1⟩ ⟨0, 0, 1⟩).tiles ≠ (Area.fromRect ⟨0, 0, 1⟩ ⟨0, 0, 1⟩).aabb := by
  decide

/-- `PitchType` from `model/pitch.rs`. -/
inductive PitchType where
  | tentPitch
  | permanentTent
  | caravanPitch
  | mobileHome
  | cottage
deriving DecidableEq, Repr

/-- `PitchType::size`. -/
def PitchType.size : PitchType → BBox
  | .caravanPitch | .tentPitch => ⟨1, 1, 1⟩
  | .permanentTent => ⟨2, 2, 2⟩
  | .mobileHome => ⟨1, 2, 2⟩
  | .cottage => ⟨2, 3, 3⟩

/-- `PitchType::required_area`. -/
def PitchType.requiredArea : PitchType → Nat
  | .caravanPitch | .tentPitch => 5 * 5
  | .permanentTent => 4 * 4
  | .mobileHome => 2 * 4
  | .cottage => 3 * 4

/-- `PitchType::is_real_building`. -/
def PitchType.isRealBuilding : PitchType → Bool
  | .caravanPitch | .tentPitch => false
  | .permanentTent | .mobileHome | .cottage => true

/-- `Pitch` from `model/pitch.rs`: an optional assigned type and a
multiplicity (`Metric<1, 2>`, whose `Default` is the minimum, 1). -/
structure Pitch where
  kind : Option PitchType
  multiplicity : Nat
deriving DecidableEq, Repr

/-- `Pitch::required_area`: `kind.map(|k| k.required_area() * multiplicity).unwrap_or(0)`. -/
def Pitch.requiredArea (p : Pitch) : Nat :=
  match p.kind with
  | some k => k.requiredArea * p.multiplicity
  | none => 0

/-- `BuildError` from `ui/build.rs`. -/
inductive BuildError where
  | noAccommodationHere
  | noSpace
  | pitchTooSmall (required : Nat) (actual : Nat)
deriving DecidableEq, Repr

/-- An accommodation entity as seen by `perform_accommodation_type_build`:
a plain `Area` (the query excludes finalized pitches, which hold
`ImmutableArea` instead), the pitch data, whether the area has been swapped
to `ImmutableArea`, and the footprint boxes of spawned building children. -/
structure AccEntity where
  area : Area
  pitch : Pitch
  immutable : Bool
  children : List GridBox
deriving DecidableEq

/-- `perform_accommodation_type_build` for a single build event: locate the
first accommodation whose area contains the target tile; validate the
centered, flattened footprint box with `Area::fits`, then the tile count
against `required_area()`; on failure push the error and leave all entities
untouched, on success assign the kind, spawn the building child (for real
building types) and swap `Area` for `ImmutableArea` in the same pass. -/
def performBuild : List AccEntity → Pos → PitchType → Option BuildError × List AccEntity
  | [], _, _ => (some .noAccommodationHere, [])
  | a :: rest, start, k =>
    if a.area.containsPos start then
      if a.area.fits (GridBox.around start k.size.flat) then
        if a.area.size < k.requiredArea then
          (some (.pitchTooSmall k.requiredArea a.area.size), a :: rest)
        else
          (none,
            { a with
                pitch := { a.pitch with kind := some k }
                children := a.children ++
                  (if k.isRealBuilding then [GridBox.around start k.size.flat] else [])
                immutable := true } :: rest)
      else
        (some .noSpace, a :: rest)
    else
      let r := performBuild rest start k
      (r.1, a :: r.2)

/-- C2: `perform_accommodation_type_build` validates in order — owner lookup
(`NoAccommodationHere`), footprint box containment (`NoSpace`), tile count
(`PitchTooSmall{required, actual}`) — mutating nothing on any failure path,
and on success assigns the kind, spawns the building child (for real
building types) and swaps `Area` → `ImmutableArea` in the same pass. -/
theorem claim_C2_build_validation :
    (∀ (accs : List AccEntity) (start : Pos) (k : PitchType),
      (∀ a ∈ accs, a.area.containsPos start = false) →
        performBuild accs start k = (some .noAccommodationHere, accs)) ∧
    (∀ (accs : List AccEntity) (start : Pos) (k : PitchType),
      (performBuild accs start k).1 ≠ none → (performBuild accs start k).2 = accs) ∧
    (∀ (pre post : List AccEntity) (a : AccEntity) (start : Pos) (k : PitchType),
      (∀ b ∈ pre, b.area.containsPos start = false) →
      a.area.containsPos start = true →
        (a.area.fits (GridBox.around start k.size.flat) = false →
          performBuild (pre ++ a :: post) start k = (some .noSpace, pre ++ a :: post)) ∧
        (a.area.fits (GridBox.around start k.size.flat) = true →
          a.area.size < k.requiredArea →
            performBuild (pre ++ a :: post) start k =
              (some (.pitchTooSmall k.requiredArea a.area.size), pre ++ a :: post)) ∧
        (a.area.fits (GridBox.around start k.size.flat) = true →
          ¬ a.area.size < k.requiredArea →
            performBuild (pre ++ a :: post) start k =
              (none, pre ++ { a with
                  pitch := { a.pitch with kind := some k },
                  children := a.children ++
                    (if k.isRealBuilding then [GridBox.around start k.size.flat] else []),
                  immutable := true } :: post))) := by
  refine ⟨?_, ?_, ?_⟩
  · intro accs start k h
    induction accs with
    | nil => rfl
    | cons a rest ih =>
      have ha := h a (List.mem_cons_self _ _)
      simp only [performBuild, ha, Bool.false_eq_true, if_false]
      rw [ih fun b hb => h b (List.mem_cons_of_mem _ hb)]
  · intro accs start k
    induction accs with
    | nil => intro _; rfl
    | cons a rest ih =>
      intro herr
      by_cases ha : a.area.containsPos start = true
      · by_cases hfit : a.area.fits (GridBox.around start k.size.flat) = true
        · by_cases hsz : a.area.size < k.requiredArea
          · simp [performBuild, ha, hfit, hsz]
          · simp only [performBuild, ha, hfit, if_true, if_neg hsz] at herr
            simp at herr
        · simp [performBuild, ha, hfit]
      · simp only [performBuild, Bool.not_eq_true] at ha herr ⊢
        simp only [ha, Bool.false_eq_true, if_false] at herr ⊢
        rw [ih herr]
  · intro pre post a start k hpre ha
    induction pre with
    | nil =>
      refine ⟨?_, ?_, ?_⟩
      · intro hfit
        simp [performBuild, ha, hfit]
      · intro hfit hsz
        simp [performBuild, ha, hfit, hsz]
      · intro hfit hsz
        simp [performBuild, ha, hfit, hsz]
    | cons b pre ih =>
      have hb := hpre b (List.mem_cons_self _ _)
      obtain ⟨ih1, ih2, ih3⟩ := ih fun c hc => hpre c (List.mem_cons_of_mem _ hc)
      refine ⟨?_, ?_, ?_⟩
      · intro hfit
        simp only [List.cons_append, performBuild, hb, Bool.false_eq_true, if_false,
          List.append_eq]
        rw [ih1 hfit]
      · intro hfit hsz
        simp only [List.cons_append, performBuild, hb, Bool.false_eq_true, if_false,
          List.append_eq]
        rw [ih2 hfit hsz]
      · intro hfit hsz
        simp only [List.cons_append, performBuild, hb, Bool.false_eq_true, if_false,
          List.append_eq]
        rw [ih3 hfit hsz]

set_option maxHeartbeats 1600000 in
theorem claim_C2_witness :
    performBuild [⟨Area.fromRect ⟨0, 0, 0⟩ ⟨2, 2, 0⟩, ⟨none, 1⟩, false, []⟩] ⟨1, 1, 0⟩
        PitchType.permanentTent =
      (some (.pitchTooSmall 16 9), [⟨Area.fromRect ⟨0, 0, 0⟩ ⟨2, 2, 0⟩, ⟨none, 1⟩, false, []⟩]) := by
  have h := (claim_C2_build_validation.2.2 [] []
    ⟨Area.fromRect ⟨0, 0, 0⟩ ⟨2, 2, 0⟩, ⟨none, 1⟩, false, []⟩ ⟨1, 1, 0⟩ PitchType.permanentTent
    (by simp) (by decide)).2.1 (by decide) (by decide)
  exact h.trans (by decide)

/-- `relevant_tiles` in `update_built_pitches`:
`ground_map.kind_of(tile).is_some_and(|kind| kind == Pitch::GROUND_TYPE)`. -/
def relevantTile (kindOf : Pos → Option GroundKind) (t : Pos) : Bool :=
  match kindOf t with
  | some k => k = GroundKind.pitch
  | none => false

/-- `foreign_area_tiles`: the union of the pitch-ground tiles of all plain
`Area` entities (tiles stolen by a freshly drawn, disjoint pitch area). -/
def foreignAreaTiles (kindOf : Pos → Option GroundKind) (otherAreas : List (Finset Pos)) :
    Finset Pos :=
  otherAreas.foldl (fun acc a => acc ∪ a.filter fun t => relevantTile kindOf t) ∅

/-- A finalized pitch as seen by `update_built_pitches`.  The query is
`(Entity, &mut Pitch, &Children, &mut ImmutableArea)`: `children = none`
models an entity *without* a `Children` component (a finalized pitch whose
type is not a real building never got building children spawned), which the
query therefore does not match at all. -/
structure BuiltPitch where
  pitch : Pitch
  area : Area
  children : Option (List GridBox)
  immutable : Bool
deriving DecidableEq

/-- The area restriction step of `update_built_pitches`:
`area.retain_tiles(|tile| relevant_tiles(tile) && !foreign_area_tiles.contains_key(tile))`. -/
def revalidatedArea (kindOf : Pos → Option GroundKind) (foreign : Finset Pos) (p : BuiltPitch) :
    Area :=
  p.area.retainTiles fun t => relevantTile kindOf t && decide (t ∉ foreign)

/-- One pitch's slice of the `update_built_pitches` pass (the per-entity
bodies run independently; the returned flag is this pitch's contribution to
the `needs_update` / `UpdateAreas` trigger).  A pitch without a `Children`
component or without `ImmutableArea` is not in the query and is left
untouched.  Otherwise its area is restricted to relevant, unclaimed tiles
and the pitch is destroyed-and-reset when the area is empty or
discontinuous, a building child no longer fits, or the tile count falls
below `required_area()`. -/
def revalidatePitch (pick : Finset Pos → Pos) (kindOf : Pos → Option GroundKind)
    (foreign : Finset Pos) (p : BuiltPitch) : BuiltPitch × Bool :=
  match p.children with
  | none => (p, false)
  | some cs =>
    if p.immutable then
      let area' := revalidatedArea kindOf foreign p
      let shouldDestroy :=
        (area'.isEmpty || isDiscontinuousFrom area'.tiles (pick area'.tiles)) ||
        (cs.any fun c => !(area'.fits c)) ||
        decide (area'.size < p.pitch.requiredArea)
      if shouldDestroy then
        ({ pitch := { kind := none, multiplicity := 1 }, area := area',
           children := some [], immutable := false }, true)
      else
        ({ p with area := area' }, false)
    else
      (p, false)

/-- C4 (amended): whenever the ground map changes, every finalized pitch
*that carries a `Children` component* is revalidated: its area is restricted
to still-pitch-ground tiles not claimed by another area, and if the result
is empty, discontinuous, misses a building child's footprint, or falls below
`required_area()`, the pitch reverts to the unassigned-mutable state — kind
cleared, multiplicity reset, children despawned, `ImmutableArea` replaced by
a plain `Area`, an `UpdateAreas` recomputation triggered — and
`required_area()` returns 0 immediately after.  (As stated the claim fails
for finalized pitches of non-building types, which have no `Children`
component and are skipped by the pass's query; see the counterexample.) -/
theorem claim_C4_revalidation_reversion (pick : Finset Pos → Pos)
    (kindOf : Pos → Option GroundKind) (foreign : Finset Pos) (p : BuiltPitch)
    (cs : List GridBox) (hch : p.children = some cs) (himm : p.immutable = true)
    (_hkind : p.pitch.kind ≠ none)
    (hcond : (revalidatedArea kindOf foreign p).isEmpty = true ∨
      isDiscontinuousFrom (revalidatedArea kindOf foreign p).tiles
        (pick (revalidatedArea kindOf foreign p).tiles) = true ∨
      (∃ c ∈ cs, (revalidatedArea kindOf foreign p).fits c = false) ∨
      (revalidatedArea kindOf foreign p).size < p.pitch.requiredArea) :
    (revalidatePitch pick kindOf foreign p).1.pitch.kind = none ∧
    (revalidatePitch pick kindOf foreign p).1.pitch.multiplicity = 1 ∧
    (revalidatePitch pick kindOf foreign p).1.children = some [] ∧
    (revalidatePitch pick kindOf foreign p).1.immutable = false ∧
    (revalidatePitch pick kindOf foreign p).1.area = revalidatedArea kindOf foreign p ∧
    (revalidatePitch pick kindOf foreign p).2 = true ∧
    (revalidatePitch pick kindOf foreign p).1.pitch.requiredArea = 0 := by
  have hdestroy :
      ((revalidatedArea kindOf foreign p).isEmpty ||
        isDiscontinuousFrom (revalidatedArea kindOf foreign p).tiles
          (pick (revalidatedArea kindOf foreign p).tiles) ||
      (cs.any fun c => !((revalidatedArea kindOf foreign p).fits c)) ||
      decide ((revalidatedArea kindOf foreign p).size < p.pitch.requiredArea)) = true := by
    rcases hcond with h | h | ⟨c, hc, h⟩ | h
    · simp [h]
    · simp [h]
    · refine Bool.or_eq_true_iff.mpr (Or.inl (Bool.or_eq_true_iff.mpr (Or.inr ?_)))
      rw [List.any_eq_true]
      exact ⟨c, hc, by simp [h]⟩
    · simp [h]
  rw [revalidatePitch, hch]
  simp only [himm, if_true, hdestroy]
  simp [Pitch.requiredArea]

/-- C4 witness: a finalized Cottage pitch with a (empty) building-children
component whose tiles were all overwritten by foreign ground reverts to the
unassigned-mutable state with `required_area() = 0`. -/
theorem claim_C4_witness :
    (revalidatePitch pickFirst (fun _ => none) ∅
        ⟨⟨some .cottage, 1⟩, Area.fromRect ⟨0, 0, 0⟩ ⟨1, 1, 0⟩, some [], true⟩).1.pitch.kind =
      none ∧
    (revalidatePitch pickFirst (fun _ => none) ∅
        ⟨⟨some .cottage, 1⟩, Area.fromRect ⟨0, 0, 0⟩ ⟨1, 1, 0⟩, some [], true⟩).1.immutable =
      false ∧
    (revalidatePitch pickFirst (fun _ => none) ∅
        ⟨⟨some .cottage, 1⟩, Area.fromRect ⟨0, 0, 0⟩ ⟨1, 1, 0⟩, some [],
          true⟩).1.pitch.requiredArea = 0 := by
  have h := claim_C4_revalidation_reversion pickFirst (fun _ => none) ∅
    ⟨⟨some .cottage, 1⟩, Area.fromRect ⟨0, 0, 0⟩ ⟨1, 1, 0⟩, some [], true⟩ [] rfl rfl
    (by simp) (Or.inl (by decide))
  exact ⟨h.1, h.2.2.2.1, h.2.2.2.2.2.2⟩

/-- C4 counterexample: a finalized TentPitch (kind = Some, ImmutableArea)
has no building children — `AccommodationBuildingBundle::new` returns `None`
for non-building types, so `with_children` is never called and the entity
has no `Children` component — hence `update_built_pitches`' query skips it
entirely: even though every tile of its area became stale (the restricted
area is empty), the pitch keeps `kind = Some(TentPitch)` and its
`ImmutableArea`, contradicting the claim as stated. -/
theorem claim_C4_counterexample :
    (revalidatedArea (fun _ => none) ∅
        ⟨⟨some .tentPitch, 1⟩, Area.fromRect ⟨0, 0, 0⟩ ⟨1, 1, 0⟩, none, true⟩).isEmpty = true ∧
    revalidatePitch pickFirst (fun _ => none) ∅
        ⟨⟨some .tentPitch, 1⟩, Area.fromRect ⟨0, 0, 0⟩ ⟨1, 1, 0⟩, none, true⟩ =
      (⟨⟨some .tentPitch, 1⟩, Area.fromRect ⟨0, 0, 0⟩ ⟨1, 1, 0⟩, none, true⟩, false) ∧
    (⟨⟨some .tentPitch, 1⟩, Area.fromRect ⟨0, 0, 0⟩ ⟨1, 1, 0⟩, none, true⟩ : BuiltPitch).pitch.kind =
      some .tentPitch := by
  refine ⟨by decide, rfl, rfl⟩

/-- `NavCategory` from `model/nav.rs`. -/
inductive NavCategory where
  | none
  | people
  | vehicles
deriving DecidableEq, Repr

/-- `PartialOrd::partial_cmp` for `NavCategory`, exactly as written in the
source: equality first, then the match `(_, None) => Greater`,
`(People, _) => Less`, `(Vehicles, People) => Greater`, `_ => None`. -/
def NavCategory.partialCmp : NavCategory → NavCategory → Option Ordering :=
  fun a b =>
    if a = b then some .eq
    else
      match a, b with
      | _, .none => some .gt
      | .people, _ => some .lt
      | .vehicles, .people => some .gt
      | _, _ => Option.none

/-- Rust's derived `PartialOrd::le`:
`matches!(partial_cmp(self, other), Some(Less | Equal))`. -/
def NavCategory.le (a b : NavCategory) : Bool :=
  match a.partialCmp b with
  | some .lt | some .eq => true
  | _ => false

/-- `Sides` from `graphics/mod.rs`, as a set of the four flag bits
(Top = 0b0001, Right = 0b0010, Bottom = 0b0100, Left = 0b1000). -/
structure Sides where
  top : Bool
  right : Bool
  bottom : Bool
  left : Bool
deriving DecidableEq, Repr

/-- `NavComponent` from `model/nav.rs`. -/
structure NavComp where
  exits : Sides
  speed : Nat
  navigability : NavCategory
deriving DecidableEq, Repr

/-- Modelled from the spec: `GridPosition::neighbors_for`, whose definition
is missing from the sources (only the call site in `update_vertex_impl`
exists); per the spec it yields the neighbour position for each direction in
the exits bitmask (Top = +y, Right = +x, Bottom = −y, Left = −x, matching
the side/offset correspondence in `Area::instantiate_borders`). -/
def Pos.neighborsFor (p : Pos) (s : Sides) : List Pos :=
  (if s.top then [⟨p.x, p.y + 1, p.z⟩] else []) ++
  (if s.right then [⟨p.x + 1, p.y, p.z⟩] else []) ++
  (if s.bottom then [⟨p.x, p.y - 1, p.z⟩] else []) ++
  (if s.left then [⟨p.x - 1, p.y, p.z⟩] else [])

/-- The navmesh graph (`DiGraphMap<NavVertex, ()>`).  `NavVertex` equality
and hashing use only the position, the speed is payload; an adjacency entry
keeps the speed it was inserted with (`add_edge((pos, v.speed),
(neighbor, v.speed))` records the *updating* vertex's speed on both
directions), so edges carry the recorded speed of their target vertex
entry. -/
structure NavGraph where
  nodes : List (Pos × Nat)
  edges : List (Pos × Pos × Nat)
deriving DecidableEq, Repr

def NavGraph.containsNode (g : NavGraph) (p : Pos) : Bool :=
  g.nodes.any fun n => n.1 = p

/-- `remove_node`: drops the node and every edge incident to it. -/
def NavGraph.removeNode (g : NavGraph) (p : Pos) : NavGraph :=
  { nodes := g.nodes.filter fun n => !(n.1 = p)
    edges := g.edges.filter fun e => !(e.1 = p) && !(e.2.1 = p) }

/-- `add_node` (GraphMap keeps the existing key when the node is present). -/
def NavGraph.addNode (g : NavGraph) (p : Pos) (speed : Nat) : NavGraph :=
  if g.containsNode p then g else { g with nodes := g.nodes ++ [(p, speed)] }

/-- `add_edge((a, s), (b, s), ())`: inserts missing endpoints as nodes and
records (or overwrites) the directed edge `a → b` with the inserted target
entry's speed. -/
def NavGraph.addEdge (g : NavGraph) (a b : Pos) (s : Nat) : NavGraph :=
  let g1 := (g.addNode a s).addNode b s
  { g1 with
    edges := (g1.edges.filter fun e => !(decide (e.1 = a) && decide (e.2.1 = b))) ++ [(a, b, s)] }

/-- `NavMesh::<N>::update_vertex_impl`: when the vertex belongs in this
category's mesh (`N <= navigability`), remove any stale node and re-add it,
then bidirectionally link it to every already-present neighbour in its exit
directions; otherwise remove the node (and hence its edges). -/
def updateVertexImpl (N : NavCategory) (g : NavGraph) (p : Pos) (v : NavComp) : NavGraph :=
  if N.le v.navigability then
    (p.neighborsFor v.exits).foldl
      (fun acc n =>
        if acc.containsNode n then (acc.addEdge p n v.speed).addEdge n p v.speed else acc)
      ((g.removeNode p).addNode p v.speed)
  else
    g.removeNode p

/-- `NavMesh::<N>::update_vertices`. -/
def updateVertices (N : NavCategory) (g : NavGraph) (vs : List (Pos × NavComp)) : NavGraph :=
  vs.foldl (fun acc pv => updateVertexImpl N acc pv.1 pv.2) g

theorem containsNode_addNode_self (g : NavGraph) (p : Pos) (s : Nat) :
    (g.addNode p s).containsNode p = true := by
  rw [NavGraph.addNode]
  by_cases h : g.containsNode p = true
  · rw [if_pos h]
    exact h
  · rw [if_neg h]
    simp [NavGraph.containsNode]

theorem containsNode_addNode_mono {g : NavGraph} {q : Pos} (p : Pos) (s : Nat)
    (h : g.containsNode q = true) : (g.addNode p s).containsNode q = true := by
  rw [NavGraph.addNode]
  by_cases hc : g.containsNode p = true
  · rw [if_pos hc]
    exact h
  · rw [if_neg hc]
    rw [NavGraph.containsNode] at h ⊢
    rw [List.any_eq_true] at h ⊢
    obtain ⟨n, hn, hq⟩ := h
    exact ⟨n, List.mem_append_left _ hn, hq⟩

theorem containsNode_addEdge_mono {g : NavGraph} {q : Pos} (a b : Pos) (s : Nat)
    (h : g.containsNode q = true) : (g.addEdge a b s).containsNode q = true := by
  rw [NavGraph.addEdge]
  exact containsNode_addNode_mono b s (containsNode_addNode_mono a s h)

theorem containsNode_linkFold {p q : Pos} {s : Nat} :
    ∀ (ns : List Pos) (g : NavGraph), g.containsNode q = true →
      (ns.foldl
        (fun acc n => if acc.containsNode n then (acc.addEdge p n s).addEdge n p s else acc)
        g).containsNode q = true := by
  intro ns
  induction ns with
  | nil => intro g h; exact h
  | cons n rest ih =>
    intro g h
    rw [List.foldl_cons]
    by_cases hc : g.containsNode n = true
    · rw [if_pos hc]
      exact ih _ (containsNode_addEdge_mono n p s (containsNode_addEdge_mono p n s h))
    · rw [if_neg hc]
      exact ih _ h

theorem containsNode_removeNode_self (g : NavGraph) (p : Pos) :
    (g.removeNode p).containsNode p = false := by
  rw [NavGraph.removeNode, NavGraph.containsNode]
  rw [List.any_eq_false]
  intro n hn
  have := List.mem_filter.mp hn
  simpa using this.2

theorem edges_removeNode (g : NavGraph) (p : Pos) :
    ∀ e ∈ (g.removeNode p).edges, e.1 ≠ p ∧ e.2.1 ≠ p := by
  intro e he
  have := (List.mem_filter.mp he).2
  simp only [Bool.and_eq_true, Bool.not_eq_true', decide_eq_false_iff_not] at this
  exact this

theorem updateVertexImpl_contains_of_le {N : NavCategory} (g : NavGraph) (p : Pos)
    (v : NavComp) (h : N.le v.navigability = true) :
    (updateVertexImpl N g p v).containsNode p = true := by
  rw [updateVertexImpl, if_pos h]
  exact containsNode_linkFold _ _ (containsNode_addNode_self _ _ _)

/-- C7: after `update_vertices` processes a tile's `NavComponent`, a
Vehicles-navigable vertex is a node of both the People and the Vehicles
navmesh, a People-navigable vertex only of the People navmesh, and a vertex
whose navigability is not at least the mesh's category is removed from that
mesh together with all of its edges. -/
theorem claim_C7_category_subsumption :
    (∀ (gP gV : NavGraph) (p : Pos) (v : NavComp),
      v.navigability = .vehicles →
        (updateVertexImpl .people gP p v).containsNode p = true ∧
        (updateVertexImpl .vehicles gV p v).containsNode p = true) ∧
    (∀ (gP gV : NavGraph) (p : Pos) (v : NavComp),
      v.navigability = .people →
        (updateVertexImpl .people gP p v).containsNode p = true ∧
        (updateVertexImpl .vehicles gV p v).containsNode p = false) ∧
    (∀ (N : NavCategory) (g : NavGraph) (p : Pos) (v : NavComp),
      N.le v.navigability = false →
        (updateVertexImpl N g p v).containsNode p = false ∧
        ∀ e ∈ (updateVertexImpl N g p v).edges, e.1 ≠ p ∧ e.2.1 ≠ p) := by
  have hremove : ∀ (N : NavCategory) (g : NavGraph) (p : Pos) (v : NavComp),
      N.le v.navigability = false →
        (updateVertexImpl N g p v).containsNode p = false ∧
        ∀ e ∈ (updateVertexImpl N g p v).edges, e.1 ≠ p ∧ e.2.1 ≠ p := by
    intro N g p v h
    rw [updateVertexImpl, if_neg (by simp [h])]
    exact ⟨containsNode_removeNode_self g p, edges_removeNode g p⟩
  refine ⟨?_, ?_, hremove⟩
  · intro gP gV p v hv
    exact ⟨updateVertexImpl_contains_of_le gP p v (by rw [hv]; decide),
      updateVertexImpl_contains_of_le gV p v (by rw [hv]; decide)⟩
  · intro gP gV p v hv
    exact ⟨updateVertexImpl_contains_of_le gP p v (by rw [hv]; decide),
      (hremove .vehicles gV p v (by rw [hv]; decide)).1⟩

theorem claim_C7_witness :
    (updateVertexImpl .people ⟨[], []⟩ ⟨0, 0, 0⟩ ⟨⟨true, true, true, true⟩, 1, .vehicles⟩).containsNode
      ⟨0, 0, 0⟩ = true ∧
    (updateVertexImpl .vehicles ⟨[], []⟩ ⟨0, 0, 0⟩
      ⟨⟨true, true, true, true⟩, 1, .people⟩).containsNode ⟨0, 0, 0⟩ = false :=
  ⟨(claim_C7_category_subsumption.1 ⟨[], []⟩ ⟨[], []⟩ ⟨0, 0, 0⟩
      ⟨⟨true, true, true, true⟩, 1, .vehicles⟩ rfl).1,
    (claim_C7_category_subsumption.2.1 ⟨[], []⟩ ⟨[], []⟩ ⟨0, 0, 0⟩
      ⟨⟨true, true, true, true⟩, 1, .people⟩ rfl).2⟩

/-- C8: evaluation of `NavCategory::partial_cmp` at the failing inputs.  The
source's match has no `(None, _)` arm, so `partial_cmp(None, People)` and
`partial_cmp(None, Vehicles)` return `None` (incomparable) even though the
opposite direction returns `Some(Greater)` — violating both the documented
strict-subset order (None < everything) and the `PartialOrd` coherence
requirement that `partial_cmp(a, b) == Some(Less)` exactly when
`partial_cmp(b, a) == Some(Greater)`. -/
theorem claim_C8_partial_cmp_incoherent :
    NavCategory.partialCmp .none .people = Option.none ∧
    NavCategory.partialCmp .people .none = some Ordering.gt ∧
    NavCategory.partialCmp .none .vehicles = Option.none ∧
    NavCategory.partialCmp .vehicles .none = some Ordering.gt ∧
    NavCategory.partialCmp .people .vehicles = some Ordering.lt ∧
    NavCategory.partialCmp .vehicles .people = some Ordering.gt ∧
    ¬ (NavCategory.partialCmp .none .people = some Ordering.lt ↔
        NavCategory.partialCmp .people .none = some Ordering.gt) := by
  decide

/-- `graph.neighbors((pos, 0))`: the successor vertices of a position, each
carrying the speed recorded in its adjacency entry (used as the edge cost:
`edge_cost = neighbor.speed`). -/
def NavGraph.neighborsOf (g : NavGraph) (p : Pos) : List (Pos × Nat) :=
  g.edges.filterMap fun e => if e.1 = p then some e.2 else Option.none

/-- `OpenSetEntry` of `NavMesh::pathfind`. -/
structure OpenEntry where
  position : Pos
  cost : Nat
  g : Nat
  predecessor : Pos
deriving DecidableEq, Repr

/-- The Manhattan-distance heuristic of `pathfind` (`abs_diff` on x and y). -/
def heuristic (a b : Pos) : Nat := (a.x - b.x).natAbs + (a.y - b.y).natAbs

/-- The `Ord` of `OpenSetEntry` on distinct positions: by total cost, ties
broken by the lexicographic order of the position (entries with equal
positions compare equal, used for keying the set by position). -/
def entryLt (a b : OpenEntry) : Bool :=
  if a.position = b.position then false
  else if a.cost = b.cost then decide (a.position < b.position) else decide (a.cost < b.cost)

/-- The minimal entry of a non-empty open set under `entryLt`. -/
def minEntry : OpenEntry → List OpenEntry → OpenEntry
  | cur, [] => cur
  | cur, e :: rest => minEntry (if entryLt e cur then e else cur) rest

/-- `BTreeSet::pop_first` on the open set: remove and return the minimal
entry (entries are keyed by position, so removal is by position). -/
def popMin (l : List OpenEntry) : Option (OpenEntry × List OpenEntry) :=
  match l with
  | [] => Option.none
  | e :: rest =>
    let m := minEntry e rest
    some (m, l.filter fun x => !(x.position = m.position))

/-- Path reconstruction: follow the closed set's predecessor entries from
`end` back to `start`, pushing each position to the front. -/
def backtrack (closed : List OpenEntry) (start : Pos) :
    Nat → Pos → List Pos → List Pos
  | 0, _, acc => acc
  | fuel + 1, cur, acc =>
    match closed.find? fun e => e.position = cur with
    | Option.none => acc
    | some e =>
      if e.position = start then e.position :: acc
      else backtrack closed start fuel e.predecessor (e.position :: acc)

/-- The neighbour-relaxation body of the A* loop: skip a neighbour already
closed; skip one already in the open set whose tentative cost is no worse
(`g >= neighbor_in_set.g`); otherwise `replace` the entry keyed by the
neighbour's position. -/
def relaxStep (endP : Pos) (cur : OpenEntry) (closedNow : List OpenEntry)
    (o : List OpenEntry) (nb : Pos × Nat) : List OpenEntry :=
  if closedNow.any (fun e => e.position = nb.1) then o
  else if (o.find? fun e => e.position = nb.1).elim false
      (fun nis => decide (nis.g ≤ cur.g + nb.2)) then o
  else
    ⟨nb.1, cur.g + nb.2 + heuristic nb.1 endP, cur.g + nb.2, cur.position⟩ ::
      o.filter fun e => !(e.position = nb.1)

/-- The A* loop of `NavMesh::pathfind`: pop the minimal open entry, close
it, return the backtracked path when it is `end`; otherwise relax all
non-closed neighbours and continue.  Each iteration closes a fresh position,
all of which come from `{start} ∪ edge targets`, so `edges.length + 2` fuel
is provably enough. -/
def astarLoop (gr : NavGraph) (start endP : Pos) :
    Nat → List OpenEntry → List OpenEntry → Option (List Pos)
  | 0, _, _ => Option.none
  | fuel + 1, openSet, closed =>
    match popMin openSet with
    | Option.none => Option.none
    | some (cur, openRest) =>
      if cur.position = endP then
        some (backtrack (cur :: closed) start ((cur :: closed).length + 1) endP [])
      else
        astarLoop gr start endP fuel
          ((gr.neighborsOf cur.position).foldl (relaxStep endP cur (cur :: closed)) openRest)
          (cur :: closed)

/-- `NavMesh::pathfind`: A* from `start` to `end`, starting from the open
set `{(start, cost 0, g 0, predecessor start)}`. -/
def pathfind (gr : NavGraph) (start endP : Pos) : Option (List Pos) :=
  astarLoop gr start endP (gr.edges.length + 2) [⟨start, 0, 0, start⟩] []

/-- One directed edge step in the navmesh graph. -/
def EdgeStep (gr : NavGraph) (a b : Pos) : Prop := ∃ s, (a, b, s) ∈ gr.edges

/-- Reachability along directed navmesh edges. -/
def ReachG (gr : NavGraph) : Pos → Pos → Prop := Relation.ReflTransGen (EdgeStep gr)

/-- All sides set (a fully connected grid tile). -/
def sidesAll : Sides := ⟨true, true, true, true⟩

/-- The 3×3 fully connected grid navmesh of the spec's A* test, built
through `update_vertices` with uniform speed 1. -/
def grid3 : NavGraph :=
  updateVertices .people ⟨[], []⟩
    ((List.range 3).flatMap fun x =>
      (List.range 3).map fun y =>
        ((⟨(x : Int), (y : Int), 0⟩ : Pos), (⟨sidesAll, 1, .people⟩ : NavComp)))

theorem minEntry_mem : ∀ (rest : List OpenEntry) (cur : OpenEntry),
    minEntry cur rest ∈ cur :: rest := by
  intro rest
  induction rest with
  | nil => intro cur; exact List.mem_singleton.mpr rfl
  | cons e rest ih =>
    intro cur
    rw [minEntry]
    rcases List.mem_cons.mp (ih (if entryLt e cur then e else cur)) with h | h
    · rw [h]
      by_cases hc : entryLt e cur = true
      · rw [if_pos hc]
        exact List.mem_cons_of_mem _ (List.mem_cons_self _ _)
      · rw [if_neg hc]
        exact List.mem_cons_self _ _
    · exact List.mem_cons_of_mem _ (List.mem_cons_of_mem _ h)

theorem popMin_none {l : List OpenEntry} (h : popMin l = Option.none) : l = [] := by
  cases l with
  | nil => rfl
  | cons e rest => simp [popMin] at h

theorem popMin_some {l : List OpenEntry} {m : OpenEntry} {rest : List OpenEntry}
    (h : popMin l = some (m, rest)) :
    m ∈ l ∧ rest = l.filter fun x => !(x.position = m.position) := by
  cases l with
  | nil => simp [popMin] at h
  | cons e tail =>
    rw [popMin] at h
    simp only [Option.some.injEq, Prod.mk.injEq] at h
    obtain ⟨hm, hrest⟩ := h
    subst hm
    exact ⟨minEntry_mem tail e, hrest.symm⟩

theorem mem_neighborsOf {gr : NavGraph} {p : Pos} {nb : Pos × Nat} :
    nb ∈ gr.neighborsOf p ↔ (p, nb) ∈ gr.edges := by
  rw [NavGraph.neighborsOf, List.mem_filterMap]
  constructor
  · rintro ⟨e, he, hnb⟩
    by_cases hp : e.1 = p
    · rw [if_pos hp] at hnb
      have : e = (p, nb) := by
        obtain ⟨e1, e2⟩ := e
        simp only [Option.some.injEq] at hnb
        simp only at hp
        rw [hp, hnb]
      exact this ▸ he
    · rw [if_neg hp] at hnb
      exact absurd hnb (by simp)
  · intro h
    exact ⟨(p, nb), h, by simp⟩

/-- Membership characterization of the relaxation fold: every entry of the
result is either an original entry or a freshly inserted neighbour entry
whose position was not closed. -/
theorem relax_mem {endP : Pos} {cur : OpenEntry} {closedNow : List OpenEntry} :
    ∀ (nbs : List (Pos × Nat)) (o : List OpenEntry) (e : OpenEntry),
      e ∈ nbs.foldl (relaxStep endP cur closedNow) o →
      e ∈ o ∨ ∃ nb ∈ nbs, e.position = nb.1 ∧
        (closedNow.any fun x => x.position = nb.1) = false := by
  intro nbs
  induction nbs with
  | nil => intro o e he; exact Or.inl he
  | cons nb rest ih =>
    intro o e he
    rw [List.foldl_cons] at he
    rcases ih _ e he with h | ⟨nb', hnb', h1, h2⟩
    · rw [relaxStep] at h
      by_cases hcl : (closedNow.any fun x => x.position = nb.1) = true
      · rw [if_pos hcl] at h
        exact Or.inl h
      · rw [Bool.not_eq_true] at hcl
        rw [hcl] at h
        simp only [Bool.false_eq_true, if_false] at h
        by_cases hskip : ((o.find? fun x => x.position = nb.1).elim false
            (fun nis => decide (nis.g ≤ cur.g + nb.2))) = true
        · rw [if_pos hskip] at h
          exact Or.inl h
        · rw [if_neg hskip] at h
          rcases List.mem_cons.mp h with rfl | h
          · exact Or.inr ⟨nb, List.mem_cons_self _ _, rfl, hcl⟩
          · exact Or.inl (List.mem_filter.mp h).1
    · exact Or.inr ⟨nb', List.mem_cons_of_mem _ hnb', h1, h2⟩

/-- Position-set monotonicity of the relaxation fold. -/
theorem relax_pos_mono {endP : Pos} {cur : OpenEntry} {closedNow : List OpenEntry} :
    ∀ (nbs : List (Pos × Nat)) (o : List OpenEntry) (q : Pos),
      q ∈ o.map OpenEntry.position →
      q ∈ (nbs.foldl (relaxStep endP cur closedNow) o).map OpenEntry.position := by
  intro nbs
  induction nbs with
  | nil => intro o q hq; exact hq
  | cons nb rest ih =>
    intro o q hq
    rw [List.foldl_cons]
    refine ih _ q ?_
    rw [relaxStep]
    by_cases hcl : (closedNow.any fun x => x.position = nb.1) = true
    · rw [if_pos hcl]; exact hq
    · rw [Bool.not_eq_true] at hcl
      rw [hcl]
      simp only [Bool.false_eq_true, if_false]
      by_cases hskip : ((o.find? fun x => x.position = nb.1).elim false
          (fun nis => decide (nis.g ≤ cur.g + nb.2))) = true
      · rw [if_pos hskip]; exact hq
      · rw [if_neg hskip]
        obtain ⟨x, hx, hxq⟩ := List.mem_map.mp hq
        by_cases hqe : q = nb.1
        · exact List.mem_map.mpr ⟨_, List.mem_cons_self _ _, hqe.symm⟩
        · refine List.mem_map.mpr ⟨x, List.mem_cons_of_mem _ (List.mem_filter.mpr ⟨hx, ?_⟩), hxq⟩
          simp only [Bool.not_eq_true']
          rw [decide_eq_false_iff_not, hxq]
          exact hqe

/-- After relaxing, every neighbour position is closed or present in the
open set. -/
theorem relax_covers {endP : Pos} {cur : OpenEntry} {closedNow : List OpenEntry} :
    ∀ (nbs : List (Pos × Nat)) (o : List OpenEntry), ∀ nb ∈ nbs,
      nb.1 ∈ closedNow.map OpenEntry.position ∨
      nb.1 ∈ (nbs.foldl (relaxStep endP cur closedNow) o).map OpenEntry.position := by
  intro nbs
  induction nbs with
  | nil => intro o nb h; exact absurd h (List.not_mem_nil _)
  | cons nb0 rest ih =>
    intro o nb hnb
    rcases List.mem_cons.mp hnb with rfl | hnb
    · rw [List.foldl_cons, relaxStep]
      by_cases hcl : (closedNow.any fun x => x.position = nb.1) = true
      · left
        obtain ⟨x, hx, hxq⟩ := List.any_eq_true.mp hcl
        exact List.mem_map.mpr ⟨x, hx, by simpa using hxq⟩
      · right
        rw [Bool.not_eq_true] at hcl
        rw [hcl]
        simp only [Bool.false_eq_true, if_false]
        by_cases hskip : ((o.find? fun x => x.position = nb.1).elim false
            (fun nis => decide (nis.g ≤ cur.g + nb.2))) = true
        · rw [if_pos hskip]
          cases hfind : o.find? fun x => x.position = nb.1 with
          | none => rw [hfind] at hskip; simp at hskip
          | some nis =>
            have hmem := List.mem_of_find?_eq_some hfind
            have hfound := List.find?_some hfind
            refine relax_pos_mono rest _ _ (List.mem_map.mpr ⟨nis, hmem, ?_⟩)
            simpa using hfound
        · rw [if_neg hskip]
          exact relax_pos_mono rest _ _ (List.mem_map.mpr ⟨_, List.mem_cons_self _ _, rfl⟩)
    · exact ih (relaxStep endP cur closedNow o nb0) nb hnb

theorem astarLoop_succ_none {gr : NavGraph} {start endP : Pos} {m : Nat}
    {o c : List OpenEntry} (h : popMin o = Option.none) :
    astarLoop gr start endP (m + 1) o c = Option.none := by
  simp only [astarLoop, h]

theorem astarLoop_succ_some {gr : NavGraph} {start endP : Pos} {m : Nat}
    {o c : List OpenEntry} {cur : OpenEntry} {rest : List OpenEntry}
    (h : popMin o = some (cur, rest)) :
    astarLoop gr start endP (m + 1) o c =
      if cur.position = endP then
        some (backtrack (cur :: c) start ((cur :: c).length + 1) endP [])
      else
        astarLoop gr start endP m
          ((gr.neighborsOf cur.position).foldl (relaxStep endP cur (cur :: c)) rest)
          (cur :: c) := by
  simp only [astarLoop, h]

/-- A* soundness: a returned path witnesses reachability of `end` (every
position ever placed in the open set is reachable from `start`). -/
theorem astar_sound (gr : NavGraph) (start endP : Pos) :
    ∀ (fuel : Nat) (openSet closed : List OpenEntry),
      (∀ e ∈ openSet, ReachG gr start e.position) →
      (astarLoop gr start endP fuel openSet closed).isSome = true →
      ReachG gr start endP := by
  intro fuel
  induction fuel with
  | zero => intro o c _ h; simp [astarLoop] at h
  | succ m ih =>
    intro o c hopen h
    cases hpop : popMin o with
    | none => rw [astarLoop_succ_none hpop] at h; simp at h
    | some pr =>
      obtain ⟨cur, rest⟩ := pr
      obtain ⟨hcurmem, hrest⟩ := popMin_some hpop
      have hcur : ReachG gr start cur.position := hopen cur hcurmem
      rw [astarLoop_succ_some hpop] at h
      by_cases hend : cur.position = endP
      · exact hend ▸ hcur
      · rw [if_neg hend] at h
        refine ih _ _ ?_ h
        intro e he
        rcases relax_mem _ _ e he with hor | ⟨nb, hnb, hpos, -⟩
        · rw [hrest] at hor
          exact hopen e (List.mem_filter.mp hor).1
        · have hedge : (cur.position, nb) ∈ gr.edges := mem_neighborsOf.mp hnb
          rw [hpos]
          exact hcur.tail ⟨nb.2, hedge⟩

/-- The positions that can ever appear in the open or closed set: the start
position and the targets of the graph's edges. -/
def candidates (gr : NavGraph) (start : Pos) : List Pos :=
  start :: gr.edges.map fun e => e.2.1

/-- A* completeness: when `end` is reachable from `start` the loop cannot
return `None` — each iteration closes a fresh candidate position, and were
the open set to empty, the closed set would be closed under neighbours and
would therefore contain the reachable `end`, which would already have been
popped. -/
theorem astar_complete (gr : NavGraph) (start endP : Pos) (hreach : ReachG gr start endP) :
    ∀ (fuel : Nat) (openSet closed : List OpenEntry),
      (closed.map OpenEntry.position).Nodup →
      (∀ e ∈ closed, e.position ∈ candidates gr start) →
      (∀ e ∈ openSet, e.position ∈ candidates gr start) →
      (∀ e ∈ openSet, e.position ∉ closed.map OpenEntry.position) →
      (∀ c ∈ closed, ∀ nb ∈ gr.neighborsOf c.position,
        nb.1 ∈ closed.map OpenEntry.position ∨ nb.1 ∈ openSet.map OpenEntry.position) →
      endP ∉ closed.map OpenEntry.position →
      (start ∈ closed.map OpenEntry.position ∨ start ∈ openSet.map OpenEntry.position) →
      (candidates gr start).toFinset.card + 1 ≤ fuel + closed.length →
      astarLoop gr start endP fuel openSet closed ≠ Option.none := by
  intro fuel
  induction fuel with
  | zero =>
    intro o c hnodup hcC _ _ _ _ _ hfuel
    exfalso
    have hsub : (c.map OpenEntry.position).toFinset ⊆ (candidates gr start).toFinset := by
      intro x hx
      obtain ⟨e, he, hex⟩ := List.mem_map.mp (List.mem_toFinset.mp hx)
      exact List.mem_toFinset.mpr (hex ▸ hcC e he)
    have h1 : (c.map OpenEntry.position).toFinset.card ≤ (candidates gr start).toFinset.card :=
      Finset.card_le_card hsub
    have h2 : (c.map OpenEntry.position).toFinset.card = c.length := by
      rw [List.toFinset_card_of_nodup hnodup, List.length_map]
    omega
  | succ m ih =>
    intro o c hnodup hcC hoC hdisj hclosure hendn hstart hfuel
    cases hpop : popMin o with
    | none =>
      have ho : o = [] := popMin_none hpop
      subst ho
      exfalso
      have hstartc : start ∈ c.map OpenEntry.position := by
        rcases hstart with h | h
        · exact h
        · simp at h
      have hall : ∀ x, ReachG gr start x → x ∈ c.map OpenEntry.position := by
        intro x hx
        induction hx with
        | refl => exact hstartc
        | @tail b x _ hbc ihx =>
          obtain ⟨entry, hentry, hposE⟩ := List.mem_map.mp ihx
          obtain ⟨s, hs⟩ := hbc
          have hnb : ((x, s) : Pos × Nat) ∈ gr.neighborsOf entry.position :=
            mem_neighborsOf.mpr (by rw [hposE]; exact hs)
          rcases hclosure entry hentry (x, s) hnb with h | h
          · exact h
          · simp at h
      exact hendn (hall endP hreach)
    | some pr =>
      obtain ⟨cur, rest⟩ := pr
      obtain ⟨hcurmem, hrest⟩ := popMin_some hpop
      rw [astarLoop_succ_some hpop]
      by_cases hend : cur.position = endP
      · rw [if_pos hend]
        simp
      · rw [if_neg hend]
      -- two sub-facts about the filtered remainder of the open set
        have hrest_mem : ∀ e ∈ rest, e ∈ o ∧ e.position ≠ cur.position := by
          intro e he
          rw [hrest] at he
          have h := List.mem_filter.mp he
          refine ⟨h.1, ?_⟩
          have := h.2
          simp only [Bool.not_eq_true', decide_eq_false_iff_not] at this
          exact this
        have hmem_rest : ∀ e ∈ o, e.position ≠ cur.position → e ∈ rest := by
          intro e he hne
          rw [hrest]
          refine List.mem_filter.mpr ⟨he, ?_⟩
          simp only [Bool.not_eq_true', decide_eq_false_iff_not]
          exact hne
        refine ih _ _ ?_ ?_ ?_ ?_ ?_ ?_ ?_ ?_
        · rw [List.map_cons, List.nodup_cons]
          exact ⟨hdisj cur hcurmem, hnodup⟩
        · intro e he
          rcases List.mem_cons.mp he with rfl | he
          · exact hoC _ hcurmem
          · exact hcC e he
        · intro e he
          rcases relax_mem _ _ e he with hor | ⟨nb, hnb, hpos, -⟩
          · exact hoC e (hrest_mem e hor).1
          · have hedge : (cur.position, nb) ∈ gr.edges := mem_neighborsOf.mp hnb
            rw [hpos]
            exact List.mem_cons_of_mem _ (List.mem_map.mpr ⟨(cur.position, nb), hedge, rfl⟩)
        · intro e he
          rcases relax_mem _ _ e he with hor | ⟨nb, hnb, hpos, hncl⟩
          · obtain ⟨heo, hene⟩ := hrest_mem e hor
            rw [List.map_cons]
            intro hmem
            rcases List.mem_cons.mp hmem with h | h
            · exact hene h
            · exact hdisj e heo h
          · rw [hpos]
            intro hmem
            obtain ⟨x, hx, hxq⟩ := List.mem_map.mp hmem
            have := List.any_eq_false.mp hncl x hx
            simp only [decide_eq_true_eq] at this
            exact this hxq
        · intro cl hcl nb hnb
          rcases List.mem_cons.mp hcl with rfl | hcl
          · exact relax_covers _ _ nb hnb
          · rcases hclosure cl hcl nb hnb with h | h
            · exact Or.inl (List.mem_cons_of_mem _ h)
            · obtain ⟨x, hx, hxq⟩ := List.mem_map.mp h
              by_cases hxc : x.position = cur.position
              · exact Or.inl (by rw [List.map_cons, ← hxq, hxc]; exact List.mem_cons_self _ _)
              · exact Or.inr (relax_pos_mono _ _ _
                  (List.mem_map.mpr ⟨x, hmem_rest x hx hxc, hxq⟩))
        · rw [List.map_cons]
          intro hmem
          rcases List.mem_cons.mp hmem with h | h
          · exact hend h.symm
          · exact hendn h
        · rcases hstart with h | h
          · exact Or.inl (List.mem_cons_of_mem _ h)
          · obtain ⟨x, hx, hxq⟩ := List.mem_map.mp h
            by_cases hxc : x.position = cur.position
            · exact Or.inl (by rw [List.map_cons, ← hxq, hxc]; exact List.mem_cons_self _ _)
            · exact Or.inr (relax_pos_mono _ _ _
                (List.mem_map.mpr ⟨x, hmem_rest x hx hxc, hxq⟩))
        · simp only [List.length_cons]
          omega

set_option maxRecDepth 4000 in
set_option maxHeartbeats 1600000 in
/-- C3: on the fully connected 3×3 grid navmesh of uniform speed 1,
`pathfind((0,0),(2,2))` returns a Manhattan-optimal path of exactly 5 grid
positions from (0,0) to (2,2); `pathfind((0,0),(10,10))` returns `None`; and
in general, for every graph and every start and end, `pathfind` returns
`Some` exactly when `end` is reachable from `start` along the directed
navmesh edges (so `None` exactly when the open set empties first), without
panicking. -/
theorem claim_C3_pathfind :
    (∃ p, pathfind grid3 ⟨0, 0, 0⟩ ⟨2, 2, 0⟩ = some p ∧ p.length = 5 ∧
      p.head? = some ⟨0, 0, 0⟩ ∧ p.getLast? = some ⟨2, 2, 0⟩) ∧
    pathfind grid3 ⟨0, 0, 0⟩ ⟨10, 10, 0⟩ = Option.none ∧
    (∀ (gr : NavGraph) (s e : Pos), (pathfind gr s e).isSome = true ↔ ReachG gr s e) := by
  refine ⟨⟨[⟨0, 0, 0⟩, ⟨0, 1, 0⟩, ⟨0, 2, 0⟩, ⟨1, 2, 0⟩, ⟨2, 2, 0⟩],
    by decide, by decide, by decide, by decide⟩, by decide, ?_⟩
  intro gr s e
  constructor
  · intro h
    refine astar_sound gr s e _ _ _ ?_ h
    intro x hx
    rw [List.mem_singleton] at hx
    subst hx
    exact Relation.ReflTransGen.refl
  · intro h
    rw [← Option.ne_none_iff_isSome]
    refine astar_complete gr s e h _ _ _ (by simp) ?_ ?_ ?_ ?_ (by simp) ?_ ?_
    · intro x hx
      exact absurd hx (List.not_mem_nil _)
    · intro x hx
      rw [List.mem_singleton] at hx
      subst hx
      exact List.mem_cons_self _ _
    · intro x _
      simp
    · intro x hx
      exact absurd hx (List.not_mem_nil _)
    · right
      simp
    · have h1 := List.toFinset_card_le (candidates gr s)
      have h2 : (candidates gr s).length = gr.edges.length + 1 := by
        simp [candidates]
      simp only [List.length_nil]
      omega

/-- The x-iterating (non-steep) Bresenham loop of `line_to_2d`: yields one
position per x in `lower.x ..= upper.x` (the count is passed as fuel),
stepping y by `y_dir` and updating the decision variable `d`. -/
def bresenhamX (z ydir dy dx : Int) : Nat → Int → Int → Int → List Pos
  | 0, _, _, _ => []
  | n + 1, x, y, d =>
    ⟨x, y, z⟩ ::
      (if d > 0 then bresenhamX z ydir dy dx n (x + 1) (y + ydir) (d + 2 * (dy - dx))
       else bresenhamX z ydir dy dx n (x + 1) y (d + 2 * dy))

/-- The y-iterating (steep) Bresenham loop of `line_to_2d`. -/
def bresenhamY (z xdir dx dy : Int) : Nat → Int → Int → Int → List Pos
  | 0, _, _, _ => []
  | n + 1, y, x, d =>
    ⟨x, y, z⟩ ::
      (if d > 0 then bresenhamY z xdir dx dy n (y + 1) (x + xdir) (d + 2 * (dx - dy))
       else bresenhamY z xdir dx dy n (y + 1) x (d + 2 * dx))

/-- `GridPosition::line_to_2d`: integer Bresenham rasterization between two
positions, iterating on the axis with the gentler slope; all produced
positions inherit the source's z (the documented FIXME in the source). -/
def Pos.lineTo2d (p target : Pos) : List Pos :=
  if (p.y - target.y).natAbs < (p.x - target.x).natAbs then
    let lower := if p.x < target.x then p else target
    let upper := if p.x < target.x then target else p
    let dx := upper.x - lower.x
    let dy0 := upper.y - lower.y
    let ydir : Int := if dy0 < 0 then -1 else 1
    let dy := if dy0 < 0 then -dy0 else dy0
    bresenhamX p.z ydir dy dx (dx + 1).toNat lower.x lower.y (2 * dy - dx)
  else
    let lower := if p.y < target.y then p else target
    let upper := if p.y < target.y then target else p
    let dy := upper.y - lower.y
    let dx0 := upper.x - lower.x
    let xdir : Int := if dx0 < 0 then -1 else 1
    let dx := if dx0 < 0 then -dx0 else dx0
    bresenhamY p.z xdir dx dy (dy + 1).toNat lower.y lower.x (2 * dx - dy)

theorem bresenhamX_length (z ydir dy dx : Int) :
    ∀ (n : Nat) (x y d : Int), (bresenhamX z ydir dy dx n x y d).length = n := by
  intro n
  induction n with
  | zero => intro x y d; rfl
  | succ m ih =>
    intro x y d
    rw [bresenhamX]
    by_cases h : d > 0 <;> simp [h, ih]

theorem bresenhamY_length (z xdir dx dy : Int) :
    ∀ (n : Nat) (y x d : Int), (bresenhamY z xdir dx dy n y x d).length = n := by
  intro n
  induction n with
  | zero => intro y x d; rfl
  | succ m ih =>
    intro y x d
    rw [bresenhamY]
    by_cases h : d > 0 <;> simp [h, ih]

/-- C9: `line_to_2d((0,0,0),(5,0,0))` yields exactly the six positions of
the segment; `line_to_2d(p, p)` yields exactly `[p]` for every position;
and for every pair of endpoints the produced sequence is finite with
exactly `max(|Δx|, |Δy|) + 1` positions (the integer algorithm performs no
division, so no degenerate input can divide by zero). -/
theorem claim_C9_line_rasterization :
    Pos.lineTo2d ⟨0, 0, 0⟩ ⟨5, 0, 0⟩ =
      [⟨0, 0, 0⟩, ⟨1, 0, 0⟩, ⟨2, 0, 0⟩, ⟨3, 0, 0⟩, ⟨4, 0, 0⟩, ⟨5, 0, 0⟩] ∧
    (∀ p : Pos, Pos.lineTo2d p p = [p]) ∧
    (∀ p q : Pos, (Pos.lineTo2d p q).length =
      max (p.x - q.x).natAbs (p.y - q.y).natAbs + 1) := by
  refine ⟨by decide, ?_, ?_⟩
  · intro p
    rw [Pos.lineTo2d, if_neg (by simp)]
    simp only [ite_self, sub_self]
    norm_num
    rw [bresenhamY]
    norm_num [bresenhamY]
  · intro p q
    by_cases h : (p.y - q.y).natAbs < (p.x - q.x).natAbs
    · rw [Pos.lineTo2d, if_pos h]
      by_cases hx : p.x < q.x
      · simp only [hx, if_true, bresenhamX_length]
        omega
      · simp only [hx, if_false, bresenhamX_length]
        omega
    · rw [Pos.lineTo2d, if_neg h]
      by_cases hy : p.y < q.y
      · simp only [hy, if_true, bresenhamY_length]
        omega
      · simp only [hy, if_false, bresenhamY_length]
        omega
